import Mathlib

/-!
# Verification of `get_mental_maps.py`

A shallow embedding, in Lean 4, of the Python 2 script `get_mental_maps.py`
(retrieve system-support-map records from a PostgreSQL database, filter them,
print a tracking table, and write each qualifying document to a `.json` file),
together with proofs of the behavioural properties stated in the
specification.

Modelling conventions:
* Python `int` is modelled by `Int` (database ids and owners), loop counters
  by `Nat`.
* Python strings are Lean `String`s; character-level operations are carried
  out on `List Char` (`String.data`).
* The database, the network and the file system are external: the fetched
  rows are a parameter, and file writes are modelled as the list of
  `(path, contents)` pairs the run produces.
* Python exceptions are modelled by an explicit `PyResult` type; the outcome
  of the `psycopg2.connect` call is a parameter of the connection model.
-/

namespace GetMentalMaps

/-! ## Decimal rendering of integers (model of Python `str` on numbers) -/

/-- The decimal digit character for a digit value; arguments ≥ 9 fall into
the last branch (only 0–9 ever occur). -/
def digitChar (n : Nat) : Char :=
  if n = 0 then '0' else if n = 1 then '1' else if n = 2 then '2'
  else if n = 3 then '3' else if n = 4 then '4' else if n = 5 then '5'
  else if n = 6 then '6' else if n = 7 then '7' else if n = 8 then '8'
  else '9'

/-- Numeric value of a digit character. -/
def digitVal (c : Char) : Nat := c.toNat - 48

/-- Decimal digit test by codepoint. -/
def isDig (c : Char) : Bool := 48 ≤ c.toNat && c.toNat ≤ 57

/-- Decimal digit list of a natural number, most significant first
(model of Python `str(n)` for `n ≥ 0`). -/
def natToDigits (n : Nat) : List Char :=
  if n < 10 then [digitChar n]
  else natToDigits (n / 10) ++ [digitChar (n % 10)]
decreasing_by exact Nat.div_lt_self (by omega) (by omega)

/-- `str(n)` for a non-negative Python int. -/
def natStrS (n : Nat) : String := String.mk (natToDigits n)

/-- `str(i)` for a Python int: decimal digits, with a leading `-` when
negative. -/
def intStr (i : Int) : String :=
  if i < 0 then String.mk ('-' :: natToDigits (-i).toNat)
  else String.mk (natToDigits i.toNat)

/-- Accumulator-style evaluation of a digit string. -/
def digitsVal (cs : List Char) (acc : Nat) : Nat :=
  match cs with
  | [] => acc
  | c :: cs => digitsVal cs (acc * 10 + digitVal c)

theorem digitsVal_append (xs ys : List Char) (acc : Nat) :
    digitsVal (xs ++ ys) acc = digitsVal ys (digitsVal xs acc) := by
  induction xs generalizing acc with
  | nil => rfl
  | cons c cs ih => simp [digitsVal, ih]

theorem digitVal_digitChar {d : Nat} (h : d < 10) :
    digitVal (digitChar d) = d := by
  have : ∀ d : Nat, d < 10 → digitVal (digitChar d) = d := by decide
  exact this d h

theorem digitChar_isDig (d : Nat) : isDig (digitChar d) = true := by
  unfold digitChar
  repeat' split
  all_goals decide

theorem natToDigits_ne_nil (n : Nat) : natToDigits n ≠ [] := by
  rw [natToDigits]
  split <;> simp

theorem natToDigits_all_digits (n : Nat) :
    ∀ c ∈ natToDigits n, isDig c = true := by
  induction n using Nat.strong_induction_on with
  | _ n ih =>
    rw [natToDigits]
    split
    · intro c hc
      simp at hc
      subst hc
      exact digitChar_isDig n
    · next h =>
      intro c hc
      simp at hc
      rcases hc with hc | hc
      · exact ih (n / 10) (Nat.div_lt_self (by omega) (by omega)) c hc
      · subst hc; exact digitChar_isDig (n % 10)

theorem digitsVal_natToDigits (n : Nat) (acc : Nat) :
    digitsVal (natToDigits n) acc = acc * 10 ^ (natToDigits n).length + n := by
  induction n using Nat.strong_induction_on generalizing acc with
  | _ n ih =>
    rw [natToDigits]
    split
    · next h => simp [digitsVal, digitVal_digitChar h]
    · next h =>
      have hlt : n / 10 < n := Nat.div_lt_self (by omega) (by omega)
      rw [digitsVal_append]
      simp only [digitsVal, digitVal_digitChar (Nat.mod_lt n (by omega))]
      rw [ih (n / 10) hlt acc]
      simp only [List.length_append, List.length_singleton]
      rw [pow_succ, ← mul_assoc]
      generalize acc * 10 ^ (natToDigits (n / 10)).length = A
      omega

theorem natToDigits_injective : Function.Injective natToDigits := by
  intro a b hab
  have ha := digitsVal_natToDigits a 0
  have hb := digitsVal_natToDigits b 0
  rw [hab] at ha
  simp at ha hb
  omega

theorem head_natToDigits_isDig (n : Nat) :
    ∃ c cs, natToDigits n = c :: cs ∧ isDig c = true := by
  cases h : natToDigits n with
  | nil => exact absurd h (natToDigits_ne_nil n)
  | cons c cs =>
    refine ⟨c, cs, rfl, ?_⟩
    exact natToDigits_all_digits n c (h ▸ List.mem_cons_self c cs)

theorem intStr_injective : Function.Injective intStr := by
  intro a b hab
  by_cases ha : a < 0 <;> by_cases hb : b < 0 <;>
    simp only [intStr, ha, hb, if_true, if_false, ite_true, ite_false] at hab <;>
    have hd2 := congrArg String.data hab <;>
    simp only [List.cons.injEq, true_and] at hd2
  · have := natToDigits_injective hd2
    omega
  · obtain ⟨c, cs, hc, hd⟩ := head_natToDigits_isDig b.toNat
    rw [hc] at hd2
    simp only [List.cons.injEq] at hd2
    rw [← hd2.1] at hd
    simp [isDig] at hd
  · obtain ⟨c, cs, hc, hd⟩ := head_natToDigits_isDig a.toNat
    rw [hc] at hd2
    simp only [List.cons.injEq] at hd2
    rw [hd2.1] at hd
    simp [isDig] at hd
  · have := natToDigits_injective hd2
    omega

theorem natToDigits_no_hyphen (n : Nat) : '-' ∉ natToDigits n := by
  intro hmem
  have := natToDigits_all_digits n '-' hmem
  simp [isDig] at this

/-! ## Python string primitives used by `build_output_file_path` -/

/-- Codepoints of Python 2 `string.punctuation`
(`!"#$%&'()*+,-./:;<=>?@[\]^_`` ` ``\x7b|\x7d~`), the set of characters deleted by
`loc.translate(None, string.punctuation)`. -/
def punctCodes : List Nat :=
  [33, 34, 35, 36, 37, 38, 39, 40, 41, 42, 43, 44, 45, 46, 47,
   58, 59, 60, 61, 62, 63, 64,
   91, 92, 93, 94, 95, 96,
   123, 124, 125, 126]

/-- Codepoints of Python 2 `string.whitespace` (`\t\n\x0b\x0c\r` and space),
the characters removed from both ends by `str.strip()`. -/
def isPyStripSpace (c : Char) : Bool :=
  c.toNat == 32 || c.toNat == 9 || c.toNat == 10 ||
  c.toNat == 11 || c.toNat == 12 || c.toNat == 13

/-- Python `s.strip()` on the character list: drop whitespace from both
ends. -/
def pyStrip (s : List Char) : List Char :=
  ((s.dropWhile isPyStripSpace).reverse.dropWhile isPyStripSpace).reverse

/-- Python `s.rstrip("/")` on the character list: drop trailing `/`
characters. -/
def rstripSlash (s : List Char) : List Char :=
  (s.reverse.dropWhile (fun c => c == '/')).reverse

/-- `build_output_file_path(dir, loc, id)`: translated line by line from the
source —
`clean_dir = dir.rstrip("/")`,
`clean_loc = loc.strip().translate(None, string.punctuation)`,
`clean_loc = clean_loc.replace(" ", "_")`,
`return clean_dir + "/ssm-" + clean_loc + "-" + str(id) + ".json"`. -/
def build_output_file_path (dir loc : String) (id : Int) : String :=
  let clean_dir : String := String.mk (rstripSlash dir.data)
  let clean_loc : List Char :=
    (pyStrip loc.data).filter (fun c => !(punctCodes.contains c.toNat))
  let clean_loc2 : List Char :=
    clean_loc.map (fun c => if c == ' ' then '_' else c)
  clean_dir ++ "/ssm-" ++ String.mk clean_loc2 ++ "-" ++ intStr id ++ ".json"

/-- ASCII punctuation by codepoint ranges: `!`–`/`, `:`–`@`, `[`–`` ` ``,
`\x7b`–`~`. -/
def isAsciiPunctCode (n : Nat) : Bool :=
  (33 ≤ n && n ≤ 47) || (58 ≤ n && n ≤ 64) ||
  (91 ≤ n && n ≤ 96) || (123 ≤ n && n ≤ 126)

/-- The Path Builder as the specification words it: strip trailing `/`
characters from the directory, trim surrounding whitespace from the
location, remove all ASCII punctuation characters, replace the remaining
spaces with underscores, and concatenate as
`{directory}/ssm-{cleaned_location}-{id}.json`. -/
def pathBuilderSpec (dir loc : String) (id : Int) : String :=
  let d : String := String.mk ((dir.data.reverse.dropWhile (fun c => c == '/')).reverse)
  let l1 : List Char := pyStrip loc.data
  let l2 : List Char := l1.filter (fun c => !(isAsciiPunctCode c.toNat))
  let l3 : List Char := l2.map (fun c => if c == ' ' then '_' else c)
  d ++ "/ssm-" ++ String.mk l3 ++ "-" ++ intStr id ++ ".json"

theorem punctCodes_contains_eq (n : Nat) :
    punctCodes.contains n = isAsciiPunctCode n := by
  by_cases h : n < 128
  · have hball : ∀ m, m < 128 → punctCodes.contains m = isAsciiPunctCode m := by decide
    exact hball n h
  · have h1 : punctCodes.contains n = false := by
      simp only [List.contains, List.elem_eq_mem, decide_eq_false_iff_not,
        punctCodes, List.mem_cons, List.not_mem_nil, or_false]
      omega
    have h2 : isAsciiPunctCode n = false := by
      simp only [isAsciiPunctCode, Bool.or_eq_false_iff, Bool.and_eq_false_iff,
        decide_eq_false_iff_not]
      omega
    rw [h1, h2]

theorem build_output_file_path_eq_spec (dir loc : String) (id : Int) :
    build_output_file_path dir loc id = pathBuilderSpec dir loc id := by
  have hfun : (fun c : Char => !(punctCodes.contains c.toNat))
      = (fun c : Char => !(isAsciiPunctCode c.toNat)) := by
    funext c; rw [punctCodes_contains_eq]
  simp only [build_output_file_path, pathBuilderSpec, rstripSlash, hfun]

/-! ## Console formatting (`get_pad1`, `get_pad2`, `print_row`,
`print_header`) -/

/-- A run of `n` spaces; Python `" " * k` yields the empty string for
`k ≤ 0`, which is modelled by taking `Int.toNat` at the call site. -/
def spacesStr (n : Nat) : String := String.mk (List.replicate n ' ')

/-- `get_pad1(n)`: whitespace for right-aligning the printed counter. -/
def get_pad1 (n : Nat) : String :=
  if n < 10 then "   "
  else if n < 100 then "  "
  else if n < 1000 then " "
  else ""

/-- `get_pad2(s1, s2)`: `" " * (40 - len(s1) - len(s2))`, where a negative
repeat count yields the empty string (Python semantics of `str * int`). -/
def get_pad2 (s1 s2 : String) : String :=
  spacesStr ((40 - (s1.length : Int) - (s2.length : Int)).toNat)

/-- `print_row(n, loc, sz, last_modified)`: the single line printed for a
qualifying record. -/
def print_row (n : Nat) (loc sz last_modified : String) : String :=
  get_pad1 n ++ natStrS n ++ ". " ++ loc ++ get_pad2 loc sz ++
  sz ++ spacesStr 13 ++ last_modified

/-- `print_header()`: the two header lines (title row and a rule of 74
underscores). -/
def print_header : List String :=
  ["     Location of school                  Size (bytes)     Last modified",
   String.mk (List.replicate 74 '_')]

/-! ## Timestamps (`datetime` values and `strftime("%Y-%m-%d %H:%M")`) -/

/-- A `datetime` value as its calendar components (microseconds are not
relevant to this program and are omitted). -/
structure Timestamp where
  year : Nat
  month : Nat
  day : Nat
  hour : Nat
  minute : Nat
  second : Nat
deriving DecidableEq

/-- Zero-padded two-digit field (`%m`, `%d`, `%H`, `%M`). -/
def pad2str (n : Nat) : String := if n < 10 then "0" ++ natStrS n else natStrS n

/-- Zero-padded four-digit year (`%Y`; all years in the database are
four-digit, where zero-padding and plain rendering agree). -/
def pad4str (n : Nat) : String :=
  if n < 10 then "000" ++ natStrS n
  else if n < 100 then "00" ++ natStrS n
  else if n < 1000 then "0" ++ natStrS n
  else natStrS n

/-- `t.strftime("%Y-%m-%d %H:%M")`. -/
def strftime_YmdHM (t : Timestamp) : String :=
  pad4str t.year ++ "-" ++ pad2str t.month ++ "-" ++ pad2str t.day ++ " " ++
  pad2str t.hour ++ ":" ++ pad2str t.minute

/-- Comparison of `datetime` values: lexicographic on the components, as in
Python. -/
def tsLe (a b : Timestamp) : Bool :=
  decide (a.year < b.year) || (a.year == b.year &&
   (decide (a.month < b.month) || (a.month == b.month &&
    (decide (a.day < b.day) || (a.day == b.day &&
     (decide (a.hour < b.hour) || (a.hour == b.hour &&
      (decide (a.minute < b.minute) || (a.minute == b.minute &&
       decide (a.second ≤ b.second))))))))))

theorem tsLe_trans (a b c : Timestamp) :
    tsLe a b → tsLe b c → tsLe a c := by
  intro hab hbc
  simp only [tsLe, Bool.or_eq_true, Bool.and_eq_true, decide_eq_true_eq,
    beq_iff_eq] at hab hbc ⊢
  omega

theorem tsLe_total (a b : Timestamp) : tsLe a b || tsLe b a := by
  simp only [tsLe, Bool.or_eq_true, Bool.and_eq_true, decide_eq_true_eq,
    beq_iff_eq]
  omega

/-! ## JSON documents

The `document` column is a JSON object (a Python dict of strings, numbers,
booleans, nulls, lists and nested dicts).  `JVal` is the value domain;
numbers are modelled by the integers (the documents of this study carry no
fractional numbers). -/

inductive JVal where
  | jnull
  | jbool (b : Bool)
  | jnum (i : Int)
  | jstr (s : String)
  | jarr (xs : List JVal)
  | jobj (kvs : List (String × JVal))

/-- Opening brace character. -/
def obrace : Char := Char.ofNat 123

/-- Closing brace character. -/
def cbrace : Char := Char.ofNat 125

/-- Lowercase hexadecimal digit character. -/
def hexDigitChar (n : Nat) : Char :=
  if n = 10 then 'a' else if n = 11 then 'b' else if n = 12 then 'c'
  else if n = 13 then 'd' else if n = 14 then 'e' else if n = 15 then 'f'
  else digitChar n

/-- `\uXXXX` escape for a codepoint below `0x10000`. -/
def uEscape (n : Nat) : List Char :=
  ['\\', 'u', hexDigitChar (n / 4096 % 16), hexDigitChar (n / 256 % 16),
   hexDigitChar (n / 16 % 16), hexDigitChar (n % 16)]

/-- JSON escaping of one character as the Python 2 `json` encoder performs
it with its default `ensure_ascii=True`: the two-character escapes for the
characters of its escape table, printable ASCII unchanged, `\uXXXX` for
everything else, with surrogate pairs above `0xFFFF`. -/
def jsonEscapeChar (c : Char) : List Char :=
  if c = '"' then ['\\', '"']
  else if c = '\\' then ['\\', '\\']
  else if c = '\n' then ['\\', 'n']
  else if c = '\r' then ['\\', 'r']
  else if c = '\t' then ['\\', 't']
  else if c.toNat = 8 then ['\\', 'b']
  else if c.toNat = 12 then ['\\', 'f']
  else if 32 ≤ c.toNat && c.toNat ≤ 126 then [c]
  else if c.toNat < 65536 then uEscape c.toNat
  else uEscape (55296 + (c.toNat - 65536) / 1024) ++
       uEscape (56320 + (c.toNat - 65536) % 1024)

/-- JSON escaping of a character list. -/
def escapeList : List Char → List Char
  | [] => []
  | c :: cs => jsonEscapeChar c ++ escapeList cs

/-- A JSON string literal: quote, escaped body, quote. -/
def jsonEncodeString (s : String) : List Char :=
  '"' :: (escapeList s.data ++ ['"'])

/-- The indentation in front of items at nesting level `lvl`
(`indent=4`). -/
def indentOf (lvl : Nat) : List Char := List.replicate (4 * lvl) ' '

/-- Lexicographic (strict) order on character lists: the order in which
Python 2 compares the byte strings used as JSON object keys. -/
def lexLt : List Char → List Char → Bool
  | [], [] => false
  | [], _ :: _ => true
  | _ :: _, [] => false
  | a :: as, b :: bs =>
      decide (a.toNat < b.toNat) || (a.toNat == b.toNat && lexLt as bs)

/-- Lexicographic (non-strict) order on character lists. -/
def lexLe : List Char → List Char → Bool
  | [], _ => true
  | _ :: _, [] => false
  | a :: as, b :: bs =>
      decide (a.toNat < b.toNat) || (a.toNat == b.toNat && lexLe as bs)

/-- Key comparison used by `sort_keys=True`. -/
def keyLe (a b : String) : Bool := lexLe a.data b.data

/-- Strict key comparison. -/
def keyLt (a b : String) : Bool := lexLt a.data b.data

/-- Stable insertion of a key/value pair into a key-sorted association
list. -/
def kvInsert (p : String × JVal) :
    List (String × JVal) → List (String × JVal)
  | [] => [p]
  | q :: tl => if keyLe p.1 q.1 then p :: q :: tl else q :: kvInsert p tl

/-- Stable sort of an association list by key — the effect of
`sort_keys=True` on one object (Python dicts cannot carry duplicate keys,
so any stable by-key sort is the faithful model of `sorted`). -/
def sortKvs : List (String × JVal) → List (String × JVal)
  | [] => []
  | p :: tl => kvInsert p (sortKvs tl)

mutual
/-- Recursively sort every object of a document by key: the document that
`json.dump(…, sort_keys=True)` actually renders. -/
def canon : JVal → JVal
  | .jnull => .jnull
  | .jbool b => .jbool b
  | .jnum i => .jnum i
  | .jstr s => .jstr s
  | .jarr xs => .jarr (canonList xs)
  | .jobj kvs => .jobj (sortKvs (canonKvs kvs))

def canonList : List JVal → List JVal
  | [] => []
  | x :: xs => canon x :: canonList xs

def canonKvs : List (String × JVal) → List (String × JVal)
  | [] => []
  | (k, v) :: tl => (k, canon v) :: canonKvs tl
end

mutual
/-- Serialization of a (already key-sorted) document at nesting level
`lvl`, exactly as Python's `json.dump(d, f, sort_keys=True, indent=4)`
renders it: items one per line, indented four spaces per level, separated
by `,` and newline, keys followed by `: `. -/
def serAt (lvl : Nat) : JVal → List Char
  | .jnull => ['n', 'u', 'l', 'l']
  | .jbool true => ['t', 'r', 'u', 'e']
  | .jbool false => ['f', 'a', 'l', 's', 'e']
  | .jnum i => (intStr i).data
  | .jstr s => jsonEncodeString s
  | .jarr [] => ['[', ']']
  | .jarr (x :: xs) =>
      '[' :: '\n' :: (indentOf (lvl + 1) ++ serAt (lvl + 1) x ++
        serArrItems (lvl + 1) xs ++ '\n' :: (indentOf lvl ++ [']']))
  | .jobj [] => [obrace, cbrace]
  | .jobj ((k, v) :: tl) =>
      obrace :: '\n' :: (indentOf (lvl + 1) ++ jsonEncodeString k ++
        ':' :: ' ' :: serAt (lvl + 1) v ++ serObjItems (lvl + 1) tl ++
        '\n' :: (indentOf lvl ++ [cbrace]))

/-- The remaining array items, each preceded by `,`, newline and
indentation. -/
def serArrItems (lvl : Nat) : List JVal → List Char
  | [] => []
  | x :: xs =>
      ',' :: '\n' :: (indentOf lvl ++ serAt lvl x ++ serArrItems lvl xs)

/-- The remaining object items. -/
def serObjItems (lvl : Nat) : List (String × JVal) → List Char
  | [] => []
  | (k, v) :: tl =>
      ',' :: '\n' :: (indentOf lvl ++ jsonEncodeString k ++
        ':' :: ' ' :: serAt lvl v ++ serObjItems lvl tl)
end

/-- `json.dump(d, f, sort_keys=True, indent=4)`: the exact character
contents written for document `d` (the dump of the key-sorted document). -/
def jsonDump (d : JVal) : String := String.mk (serAt 0 (canon d))

/-! ## A JSON deserializer

A standard whitespace-skipping recursive-descent JSON reader, used to state
and prove the round-trip property of the Document Writer. -/

/-- JSON insignificant whitespace. -/
def isWs (c : Char) : Bool := c == ' ' || c == '\n' || c == '\t' || c == '\r'

/-- Skip insignificant whitespace. -/
def skipWs (s : List Char) : List Char := s.dropWhile isWs

/-- Value of a hexadecimal digit character. -/
def hexVal? (c : Char) : Option Nat :=
  if 48 ≤ c.toNat ∧ c.toNat ≤ 57 then some (c.toNat - 48)
  else if 97 ≤ c.toNat ∧ c.toNat ≤ 102 then some (c.toNat - 87)
  else if 65 ≤ c.toNat ∧ c.toNat ≤ 70 then some (c.toNat - 55)
  else none

/-- Reunite a UTF-16 surrogate pair into a codepoint. -/
def combineSurrogates (hi lo : Nat) : Nat :=
  65536 + (hi - 55296) * 1024 + (lo - 56320)

/-- Value of a four-digit hexadecimal escape body. -/
def parseHex4 (h1 h2 h3 h4 : Char) : Option Nat :=
  match hexVal? h1, hexVal? h2, hexVal? h3, hexVal? h4 with
  | some a, some b, some c, some d => some (a * 4096 + b * 256 + c * 16 + d)
  | _, _, _, _ => none

/-- The character named by a single-letter escape. -/
def decodeEsc (e : Char) : Option Char :=
  if e = '"' then some '"' else if e = '\\' then some '\\'
  else if e = '/' then some '/' else if e = 'n' then some '\n'
  else if e = 'r' then some '\r' else if e = 't' then some '\t'
  else if e = 'b' then some (Char.ofNat 8)
  else if e = 'f' then some (Char.ofNat 12) else none

/-- Prepend a decoded character to the result of reading the rest of a
string body. -/
def consDecoded (d : Char) :
    Option (List Char × List Char) → Option (List Char × List Char)
  | some (cs, rest) => some (d :: cs, rest)
  | none => none

mutual
/-- Read the body of a JSON string literal (the opening quote already
consumed): returns the decoded characters and the input after the closing
quote.  Fuel-indexed; one unit of fuel is spent per step, and each step
consumes at least one input character. -/
def parseJStr : Nat → List Char → Option (List Char × List Char)
  | 0, _ => none
  | fuel + 1, s =>
    match s with
    | [] => none
    | c :: r =>
      if c = '"' then some ([], r)
      else if c = '\\' then parseEsc fuel r
      else consDecoded c (parseJStr fuel r)

/-- Read what follows a backslash. -/
def parseEsc : Nat → List Char → Option (List Char × List Char)
  | 0, _ => none
  | fuel + 1, s =>
    match s with
    | [] => none
    | e :: r2 =>
      if e = 'u' then parseU fuel r2
      else
        match decodeEsc e with
        | some d => consDecoded d (parseJStr fuel r2)
        | none => none

/-- Read the four hex digits of a `\uXXXX` escape and dispatch on the
resulting code unit. -/
def parseU : Nat → List Char → Option (List Char × List Char)
  | 0, _ => none
  | fuel + 1, s =>
    match s with
    | h1 :: h2 :: h3 :: h4 :: r3 =>
      match parseHex4 h1 h2 h3 h4 with
      | some n =>
        if 55296 ≤ n ∧ n ≤ 56319 then parseLowSur fuel n r3
        else if 56320 ≤ n ∧ n ≤ 57343 then none
        else consDecoded (Char.ofNat n) (parseJStr fuel r3)
      | none => none
    | _ => none

/-- After a high surrogate, read the paired `\uXXXX` low surrogate. -/
def parseLowSur : Nat → Nat → List Char → Option (List Char × List Char)
  | 0, _, _ => none
  | fuel + 1, n, s =>
    match s with
    | s1 :: s2 :: k1 :: k2 :: k3 :: k4 :: r4 =>
      if s1 = '\\' ∧ s2 = 'u' then
        match parseHex4 k1 k2 k3 k4 with
        | some m =>
          if 56320 ≤ m ∧ m ≤ 57343 then
            consDecoded (Char.ofNat (combineSurrogates n m)) (parseJStr fuel r4)
          else none
        | none => none
      else none
    | _ => none
end

/-- Read a non-empty run of decimal digits. -/
def parseNatDigits (s : List Char) : Option (Nat × List Char) :=
  match s.takeWhile isDig with
  | [] => none
  | ds => some (digitsVal ds 0, s.dropWhile isDig)

/-- Read a JSON integer (optional minus sign, then digits). -/
def parseNum : List Char → Option (Int × List Char)
  | [] => none
  | c :: r =>
    if c = '-' then
      match parseNatDigits r with
      | some (n, rest) => some (-(n : Int), rest)
      | none => none
    else
      match parseNatDigits (c :: r) with
      | some (n, rest) => some ((n : Int), rest)
      | none => none

/-- Split off the head of a character list and continue, or fail on the
empty list. -/
def withHead {α : Type} (s : List Char) (k : Char → List Char → Option α) :
    Option α :=
  match s with
  | [] => none
  | c :: r => k c r

/-- Read the tail of the literal `null`. -/
def parseNullBody (r : List Char) : Option (JVal × List Char) :=
  match r with
  | c1 :: c2 :: c3 :: r2 =>
    if c1 = 'u' ∧ c2 = 'l' ∧ c3 = 'l' then some (.jnull, r2) else none
  | _ => none

/-- Read the tail of the literal `true`. -/
def parseTrueBody (r : List Char) : Option (JVal × List Char) :=
  match r with
  | c1 :: c2 :: c3 :: r2 =>
    if c1 = 'r' ∧ c2 = 'u' ∧ c3 = 'e' then some (.jbool true, r2) else none
  | _ => none

/-- Read the tail of the literal `false`. -/
def parseFalseBody (r : List Char) : Option (JVal × List Char) :=
  match r with
  | c1 :: c2 :: c3 :: c4 :: r2 =>
    if c1 = 'a' ∧ c2 = 'l' ∧ c3 = 's' ∧ c4 = 'e' then some (.jbool false, r2)
    else none
  | _ => none

/-- One step of the value reader, after whitespace skipping: `c` is the
first significant character, `r` the remainder; `pv`, `pa`, `po`, `pj`
continue at the next lower fuel level. -/
def parseValCore (pv : List Char → Option (JVal × List Char))
    (pa : List Char → Option (List JVal × List Char))
    (po : List Char → Option (List (String × JVal) × List Char))
    (pj : List Char → Option (List Char × List Char))
    (c : Char) (r : List Char) : Option (JVal × List Char) :=
  if c = 'n' then parseNullBody r
  else if c = 't' then parseTrueBody r
  else if c = 'f' then parseFalseBody r
  else if c = '"' then
    (pj r).map (fun p => (.jstr (String.mk p.1), p.2))
  else if c = '[' then
    withHead (skipWs r) (fun c2 r2 =>
      if c2 = ']' then some (.jarr [], r2)
      else
        (pv (c2 :: r2)).bind (fun p =>
          (pa p.2).map (fun q => (.jarr (p.1 :: q.1), q.2))))
  else if c = obrace then
    withHead (skipWs r) (fun c2 r2 =>
      if c2 = cbrace then some (.jobj [], r2)
      else if c2 = '"' then
        (pj r2).bind (fun kp =>
          withHead (skipWs kp.2) (fun c3 r4 =>
            if c3 = ':' then
              (pv r4).bind (fun p =>
                (po p.2).map (fun q =>
                  (.jobj ((String.mk kp.1, p.1) :: q.1), q.2)))
            else none))
      else none)
  else
    (parseNum (c :: r)).map (fun p => (.jnum p.1, p.2))

/-- One step of the array-tail reader. -/
def parseArrCore (pv : List Char → Option (JVal × List Char))
    (pa : List Char → Option (List JVal × List Char))
    (c : Char) (r : List Char) : Option (List JVal × List Char) :=
  if c = ']' then some ([], r)
  else if c = ',' then
    (pv r).bind (fun p => (pa p.2).map (fun q => (p.1 :: q.1, q.2)))
  else none

/-- One step of the object-tail reader. -/
def parseObjCore (pv : List Char → Option (JVal × List Char))
    (po : List Char → Option (List (String × JVal) × List Char))
    (pj : List Char → Option (List Char × List Char))
    (c : Char) (r : List Char) : Option (List (String × JVal) × List Char) :=
  if c = cbrace then some ([], r)
  else if c = ',' then
    withHead (skipWs r) (fun c2 r2 =>
      if c2 = '"' then
        (pj r2).bind (fun kp =>
          withHead (skipWs kp.2) (fun c3 r4 =>
            if c3 = ':' then
              (pv r4).bind (fun p =>
                (po p.2).map (fun q => ((String.mk kp.1, p.1) :: q.1, q.2)))
            else none))
      else none)
  else none

mutual
/-- Read one JSON value (fuel-indexed to bound the recursion). -/
def parseVal : Nat → List Char → Option (JVal × List Char)
  | 0, _ => none
  | fuel + 1, s =>
    match skipWs s with
    | [] => none
    | c :: r =>
      parseValCore (parseVal fuel) (parseArrRest fuel) (parseObjRest fuel)
        (parseJStr fuel) c r

/-- Read the remainder of a JSON array after its first element: a `]`, or
`,`-separated further elements. -/
def parseArrRest : Nat → List Char → Option (List JVal × List Char)
  | 0, _ => none
  | fuel + 1, s =>
    match skipWs s with
    | [] => none
    | c :: r => parseArrCore (parseVal fuel) (parseArrRest fuel) c r

/-- Read the remainder of a JSON object after its first member. -/
def parseObjRest : Nat → List Char → Option (List (String × JVal) × List Char)
  | 0, _ => none
  | fuel + 1, s =>
    match skipWs s with
    | [] => none
    | c :: r =>
      parseObjCore (parseVal fuel) (parseObjRest fuel) (parseJStr fuel) c r
end

/-- Deserialize a JSON text: read one value and require only whitespace to
follow. -/
def jsonDecode (s : String) : Option JVal :=
  match parseVal (s.data.length + 1) s.data with
  | some (v, rest) => if skipWs rest = [] then some v else none
  | none => none

/-! ## Round-trip of the Document Writer: auxiliary lemmas -/

theorem skipWs_cons_of_not {c : Char} (r : List Char) (h : isWs c = false) :
    skipWs (c :: r) = c :: r := by
  simp [skipWs, List.dropWhile_cons, h]

theorem skipWs_append_ws (p s : List Char) (h : ∀ c ∈ p, isWs c = true) :
    skipWs (p ++ s) = skipWs s := by
  induction p with
  | nil => rfl
  | cons c cs ih =>
    simp only [List.cons_append, skipWs, List.dropWhile_cons,
      h c (List.mem_cons_self c cs), if_true]
    exact ih (fun x hx => h x (List.mem_cons_of_mem c hx))

theorem skipWs_indent (lvl : Nat) (s : List Char) :
    skipWs (indentOf lvl ++ s) = skipWs s := by
  apply skipWs_append_ws
  intro c hc
  rw [List.eq_of_mem_replicate hc]
  decide

theorem char_valid_ranges (c : Char) :
    c.toNat < 1114112 ∧ (c.toNat < 55296 ∨ 57343 < c.toNat) := by
  have h : c.toNat < 55296 ∨ (57343 < c.toNat ∧ c.toNat < 1114112) := c.valid
  omega

theorem hexVal?_hexDigitChar {d : Nat} (h : d < 16) :
    hexVal? (hexDigitChar d) = some d := by
  have hball : ∀ d : Nat, d < 16 → hexVal? (hexDigitChar d) = some d := by decide
  exact hball d h

theorem parseHex4_digits {a b c d : Nat}
    (ha : a < 16) (hb : b < 16) (hc : c < 16) (hd : d < 16) :
    parseHex4 (hexDigitChar a) (hexDigitChar b) (hexDigitChar c)
      (hexDigitChar d) = some (a * 4096 + b * 256 + c * 16 + d) := by
  simp [parseHex4, hexVal?_hexDigitChar, ha, hb, hc, hd]

/-- The fuel spent by the string reader on one escaped character. -/
def escSteps (c : Char) : Nat :=
  if c = '"' ∨ c = '\\' ∨ c = '\n' ∨ c = '\r' ∨ c = '\t' ∨
     c.toNat = 8 ∨ c.toNat = 12 then 2
  else if 32 ≤ c.toNat ∧ c.toNat ≤ 126 then 1
  else if c.toNat < 65536 then 3
  else 4

/-- The fuel spent by the string reader on an escaped character list. -/
def escFuel : List Char → Nat
  | [] => 0
  | c :: cs => escSteps c + escFuel cs

theorem parseJStr_u_step (f : Nat) (h1 h2 h3 h4 : Char) (t : List Char) :
    parseJStr (f + 3) ('\\' :: 'u' :: h1 :: h2 :: h3 :: h4 :: t)
      = (match parseHex4 h1 h2 h3 h4 with
         | some n =>
           if 55296 ≤ n ∧ n ≤ 56319 then parseLowSur f n t
           else if 56320 ≤ n ∧ n ≤ 57343 then none
           else consDecoded (Char.ofNat n) (parseJStr f t)
         | none => none) := rfl

theorem parseLowSur_step (f : Nat) (n : Nat) (k1 k2 k3 k4 : Char)
    (t : List Char) :
    parseLowSur (f + 1) n ('\\' :: 'u' :: k1 :: k2 :: k3 :: k4 :: t)
      = (match parseHex4 k1 k2 k3 k4 with
         | some m =>
           if 56320 ≤ m ∧ m ≤ 57343 then
             consDecoded (Char.ofNat (combineSurrogates n m)) (parseJStr f t)
           else none
         | none => none) := rfl

theorem parseJStr_u_digits (f : Nat) {a b c1 d : Nat}
    (ha : a < 16) (hb : b < 16) (hc : c1 < 16) (hd : d < 16) (t : List Char) :
    parseJStr (f + 3) ('\\' :: 'u' :: hexDigitChar a :: hexDigitChar b ::
        hexDigitChar c1 :: hexDigitChar d :: t)
      = (if 55296 ≤ a * 4096 + b * 256 + c1 * 16 + d ∧
            a * 4096 + b * 256 + c1 * 16 + d ≤ 56319 then
           parseLowSur f (a * 4096 + b * 256 + c1 * 16 + d) t
         else if 56320 ≤ a * 4096 + b * 256 + c1 * 16 + d ∧
            a * 4096 + b * 256 + c1 * 16 + d ≤ 57343 then none
         else consDecoded (Char.ofNat (a * 4096 + b * 256 + c1 * 16 + d))
           (parseJStr f t)) := by
  rw [parseJStr_u_step, parseHex4_digits ha hb hc hd]

theorem parseLowSur_digits (f : Nat) (n : Nat) {a b c1 d : Nat}
    (ha : a < 16) (hb : b < 16) (hc : c1 < 16) (hd : d < 16) (t : List Char) :
    parseLowSur (f + 1) n ('\\' :: 'u' :: hexDigitChar a :: hexDigitChar b ::
        hexDigitChar c1 :: hexDigitChar d :: t)
      = (if 56320 ≤ a * 4096 + b * 256 + c1 * 16 + d ∧
            a * 4096 + b * 256 + c1 * 16 + d ≤ 57343 then
           consDecoded
             (Char.ofNat (combineSurrogates n (a * 4096 + b * 256 + c1 * 16 + d)))
             (parseJStr f t)
         else none) := by
  rw [parseLowSur_step, parseHex4_digits ha hb hc hd]

theorem parseJStr_escape (cs : List Char) :
    ∀ (fuel : Nat) (rest : List Char), escFuel cs < fuel →
      parseJStr fuel (escapeList cs ++ '"' :: rest) = some (cs, rest) := by
  induction cs with
  | nil =>
    intro fuel rest hf
    obtain ⟨f, rfl⟩ : ∃ f, fuel = f + 1 := ⟨fuel - 1, by omega⟩
    rfl
  | cons c cs ih =>
    intro fuel rest hf
    have hval := char_valid_ranges c
    by_cases h1 : c = '"'
    · subst h1
      have hs : escSteps '"' = 2 := by simp [escSteps]
      rw [escFuel, hs] at hf
      obtain ⟨f, rfl⟩ : ∃ f, fuel = f + 2 := ⟨fuel - 2, by omega⟩
      show parseJStr (f + 1 + 1)
        ('\\' :: '"' :: (escapeList cs ++ '"' :: rest)) = _
      rw [show parseJStr (f + 1 + 1)
            ('\\' :: '"' :: (escapeList cs ++ '"' :: rest))
          = consDecoded '"' (parseJStr f (escapeList cs ++ '"' :: rest))
          from rfl]
      rw [ih f rest (by omega)]
      rfl
    · by_cases h2 : c = '\\'
      · subst h2
        have hs : escSteps '\\' = 2 := by simp [escSteps]
        rw [escFuel, hs] at hf
        obtain ⟨f, rfl⟩ : ∃ f, fuel = f + 2 := ⟨fuel - 2, by omega⟩
        show parseJStr (f + 1 + 1)
          ('\\' :: '\\' :: (escapeList cs ++ '"' :: rest)) = _
        rw [show parseJStr (f + 1 + 1)
              ('\\' :: '\\' :: (escapeList cs ++ '"' :: rest))
            = consDecoded '\\' (parseJStr f (escapeList cs ++ '"' :: rest))
            from rfl]
        rw [ih f rest (by omega)]
        rfl
      · by_cases h3 : c = '\n'
        · subst h3
          have hs : escSteps '\n' = 2 := by simp [escSteps]
          rw [escFuel, hs] at hf
          obtain ⟨f, rfl⟩ : ∃ f, fuel = f + 2 := ⟨fuel - 2, by omega⟩
          show parseJStr (f + 1 + 1)
            ('\\' :: 'n' :: (escapeList cs ++ '"' :: rest)) = _
          rw [show parseJStr (f + 1 + 1)
                ('\\' :: 'n' :: (escapeList cs ++ '"' :: rest))
              = consDecoded '\n' (parseJStr f (escapeList cs ++ '"' :: rest))
              from rfl]
          rw [ih f rest (by omega)]
          rfl
        · by_cases h4 : c = '\r'
          · subst h4
            have hs : escSteps '\r' = 2 := by simp [escSteps]
            rw [escFuel, hs] at hf
            obtain ⟨f, rfl⟩ : ∃ f, fuel = f + 2 := ⟨fuel - 2, by omega⟩
            show parseJStr (f + 1 + 1)
              ('\\' :: 'r' :: (escapeList cs ++ '"' :: rest)) = _
            rw [show parseJStr (f + 1 + 1)
                  ('\\' :: 'r' :: (escapeList cs ++ '"' :: rest))
                = consDecoded '\r' (parseJStr f (escapeList cs ++ '"' :: rest))
                from rfl]
            rw [ih f rest (by omega)]
            rfl
          · by_cases h5 : c = '\t'
            · subst h5
              have hs : escSteps '\t' = 2 := by simp [escSteps]
              rw [escFuel, hs] at hf
              obtain ⟨f, rfl⟩ : ∃ f, fuel = f + 2 := ⟨fuel - 2, by omega⟩
              show parseJStr (f + 1 + 1)
                ('\\' :: 't' :: (escapeList cs ++ '"' :: rest)) = _
              rw [show parseJStr (f + 1 + 1)
                    ('\\' :: 't' :: (escapeList cs ++ '"' :: rest))
                  = consDecoded '\t' (parseJStr f (escapeList cs ++ '"' :: rest))
                  from rfl]
              rw [ih f rest (by omega)]
              rfl
            · by_cases h6 : c.toNat = 8
              · have hesc : jsonEscapeChar c = ['\\', 'b'] := by
                  simp [jsonEscapeChar, h1, h2, h3, h4, h5, h6]
                have hc8 : c = Char.ofNat 8 := by rw [← h6, Char.ofNat_toNat]
                have hs : escSteps c = 2 := by simp [escSteps, h6]
                rw [escFuel, hs] at hf
                obtain ⟨f, rfl⟩ : ∃ f, fuel = f + 2 := ⟨fuel - 2, by omega⟩
                rw [escapeList, hesc]
                show parseJStr (f + 1 + 1)
                  ('\\' :: 'b' :: (escapeList cs ++ '"' :: rest)) = _
                rw [show parseJStr (f + 1 + 1)
                      ('\\' :: 'b' :: (escapeList cs ++ '"' :: rest))
                    = consDecoded (Char.ofNat 8)
                        (parseJStr f (escapeList cs ++ '"' :: rest))
                    from rfl]
                rw [ih f rest (by omega)]
                rw [← hc8]
                rfl
              · by_cases h7 : c.toNat = 12
                · have hesc : jsonEscapeChar c = ['\\', 'f'] := by
                    simp [jsonEscapeChar, h1, h2, h3, h4, h5, h6, h7]
                  have hc12 : c = Char.ofNat 12 := by rw [← h7, Char.ofNat_toNat]
                  have hs : escSteps c = 2 := by
                    have : ¬(c = '"' ∨ c = '\\' ∨ c = '\n' ∨ c = '\r' ∨ c = '\t' ∨
                        c.toNat = 8 ∨ c.toNat = 12) → False := by
                      intro h; exact h (by tauto)
                    simp [escSteps, h7]
                  rw [escFuel, hs] at hf
                  obtain ⟨f, rfl⟩ : ∃ f, fuel = f + 2 := ⟨fuel - 2, by omega⟩
                  rw [escapeList, hesc]
                  show parseJStr (f + 1 + 1)
                    ('\\' :: 'f' :: (escapeList cs ++ '"' :: rest)) = _
                  rw [show parseJStr (f + 1 + 1)
                        ('\\' :: 'f' :: (escapeList cs ++ '"' :: rest))
                      = consDecoded (Char.ofNat 12)
                          (parseJStr f (escapeList cs ++ '"' :: rest))
                      from rfl]
                  rw [ih f rest (by omega)]
                  rw [← hc12]
                  rfl
                · by_cases h8 : 32 ≤ c.toNat ∧ c.toNat ≤ 126
                  · -- printable ASCII: emitted unchanged
                    have hesc : jsonEscapeChar c = [c] := by
                      have h8' : (32 ≤ c.toNat && c.toNat ≤ 126) = true := by
                        simp [h8.1, h8.2]
                      simp [jsonEscapeChar, h1, h2, h3, h4, h5, h6, h7, h8']
                    have hs : escSteps c = 1 := by
                      simp [escSteps, h1, h2, h3, h4, h5, h6, h7, h8]
                    rw [escFuel, hs] at hf
                    obtain ⟨f, rfl⟩ : ∃ f, fuel = f + 1 := ⟨fuel - 1, by omega⟩
                    rw [escapeList, hesc]
                    show parseJStr (f + 1)
                      (c :: (escapeList cs ++ '"' :: rest)) = _
                    rw [parseJStr, if_neg h1, if_neg h2]
                    rw [ih f rest (by omega)]
                    rfl
                  · by_cases h9 : c.toNat < 65536
                    · -- single \uXXXX escape
                      have h8' : (32 ≤ c.toNat && c.toNat ≤ 126) = false := by
                        simp only [Bool.and_eq_false_iff, decide_eq_false_iff_not]
                        omega
                      have hesc : jsonEscapeChar c = uEscape c.toNat := by
                        simp [jsonEscapeChar, h1, h2, h3, h4, h5, h6, h7, h8', h9]
                      have hs : escSteps c = 3 := by
                        have h8n : ¬(32 ≤ c.toNat ∧ c.toNat ≤ 126) := h8
                        simp [escSteps, h1, h2, h3, h4, h5, h6, h7, h8n, h9]
                      rw [escFuel, hs] at hf
                      obtain ⟨f, rfl⟩ : ∃ f, fuel = f + 3 := ⟨fuel - 3, by omega⟩
                      rw [escapeList, hesc]
                      simp only [List.append_assoc]
                      rw [show uEscape c.toNat ++ (escapeList cs ++ '"' :: rest)
                          = '\\' :: 'u' :: hexDigitChar (c.toNat / 4096 % 16) ::
                            hexDigitChar (c.toNat / 256 % 16) ::
                            hexDigitChar (c.toNat / 16 % 16) ::
                            hexDigitChar (c.toNat % 16) ::
                            (escapeList cs ++ '"' :: rest) from rfl]
                      rw [parseJStr_u_digits f (Nat.mod_lt _ (by omega))
                        (Nat.mod_lt _ (by omega)) (Nat.mod_lt _ (by omega))
                        (Nat.mod_lt _ (by omega))]
                      have hrec : c.toNat / 4096 % 16 * 4096 + c.toNat / 256 % 16 * 256 +
                          c.toNat / 16 % 16 * 16 + c.toNat % 16 = c.toNat := by
                        omega
                      rw [hrec]
                      have hns : ¬(55296 ≤ c.toNat ∧ c.toNat ≤ 56319) := by omega
                      have hns2 : ¬(56320 ≤ c.toNat ∧ c.toNat ≤ 57343) := by omega
                      rw [if_neg hns, if_neg hns2]
                      rw [ih f rest (by omega), Char.ofNat_toNat]
                      rfl
                    · -- astral plane: surrogate pair
                      have h8' : (32 ≤ c.toNat && c.toNat ≤ 126) = false := by
                        simp only [Bool.and_eq_false_iff, decide_eq_false_iff_not]
                        omega
                      have hesc : jsonEscapeChar c =
                          uEscape (55296 + (c.toNat - 65536) / 1024) ++
                          uEscape (56320 + (c.toNat - 65536) % 1024) := by
                        simp [jsonEscapeChar, h1, h2, h3, h4, h5, h6, h7, h8', h9]
                      have hs : escSteps c = 4 := by
                        have h8n : ¬(32 ≤ c.toNat ∧ c.toNat ≤ 126) := h8
                        simp [escSteps, h1, h2, h3, h4, h5, h6, h7, h8n, h9]
                      rw [escFuel, hs] at hf
                      obtain ⟨f, rfl⟩ : ∃ f, fuel = f + 4 := ⟨fuel - 4, by omega⟩
                      have hofc : Char.ofNat c.toNat = c := Char.ofNat_toNat c
                      rw [escapeList, hesc]
                      simp only [List.append_assoc]
                      generalize hh : 55296 + (c.toNat - 65536) / 1024 = hi
                      generalize hl : 56320 + (c.toNat - 65536) % 1024 = lo
                      have hmod : (c.toNat - 65536) % 1024 < 1024 :=
                        Nat.mod_lt _ (by omega)
                      have hdiv : (c.toNat - 65536) / 1024 ≤ 1023 := by omega
                      have hhiv : hi < 65536 := by omega
                      have hlov : lo < 65536 := by omega
                      rw [show uEscape hi ++ (uEscape lo ++ (escapeList cs ++ '"' :: rest))
                          = '\\' :: 'u' :: hexDigitChar (hi / 4096 % 16) ::
                            hexDigitChar (hi / 256 % 16) ::
                            hexDigitChar (hi / 16 % 16) :: hexDigitChar (hi % 16) ::
                            ('\\' :: 'u' :: hexDigitChar (lo / 4096 % 16) ::
                             hexDigitChar (lo / 256 % 16) ::
                             hexDigitChar (lo / 16 % 16) :: hexDigitChar (lo % 16) ::
                             (escapeList cs ++ '"' :: rest)) from rfl]
                      rw [show f + 4 = f + 1 + 3 from by omega]
                      rw [parseJStr_u_digits (f + 1) (Nat.mod_lt _ (by omega))
                        (Nat.mod_lt _ (by omega)) (Nat.mod_lt _ (by omega))
                        (Nat.mod_lt _ (by omega))]
                      have hrechi : hi / 4096 % 16 * 4096 + hi / 256 % 16 * 256 +
                          hi / 16 % 16 * 16 + hi % 16 = hi := by omega
                      rw [hrechi]
                      have hhir : 55296 ≤ hi ∧ hi ≤ 56319 := by omega
                      rw [if_pos hhir]
                      rw [parseLowSur_digits f hi (Nat.mod_lt _ (by omega))
                        (Nat.mod_lt _ (by omega)) (Nat.mod_lt _ (by omega))
                        (Nat.mod_lt _ (by omega))]
                      have hreclo : lo / 4096 % 16 * 4096 + lo / 256 % 16 * 256 +
                          lo / 16 % 16 * 16 + lo % 16 = lo := by omega
                      rw [hreclo]
                      have hlor : 56320 ≤ lo ∧ lo ≤ 57343 := by omega
                      rw [if_pos hlor]
                      have hcomb : combineSurrogates hi lo = c.toNat := by
                        simp only [combineSurrogates]
                        omega
                      rw [hcomb, hofc, ih f rest (by omega)]
                      rfl

theorem string_mk_data (s : String) : String.mk s.data = s := rfl

theorem withHead_cons {α : Type} (c : Char) (r : List Char)
    (k : Char → List Char → Option α) : withHead (c :: r) k = k c r := rfl

theorem parseVal_step (f : Nat) {c : Char} (r : List Char)
    (hws : isWs c = false) :
    parseVal (f + 1) (c :: r)
      = parseValCore (parseVal f) (parseArrRest f) (parseObjRest f)
          (parseJStr f) c r := by
  rw [parseVal, skipWs_cons_of_not r hws]

theorem parseArrRest_step (f : Nat) {c : Char} (r : List Char)
    (hws : isWs c = false) :
    parseArrRest (f + 1) (c :: r)
      = parseArrCore (parseVal f) (parseArrRest f) c r := by
  rw [parseArrRest, skipWs_cons_of_not r hws]

theorem parseObjRest_step (f : Nat) {c : Char} (r : List Char)
    (hws : isWs c = false) :
    parseObjRest (f + 1) (c :: r)
      = parseObjCore (parseVal f) (parseObjRest f) (parseJStr f) c r := by
  rw [parseObjRest, skipWs_cons_of_not r hws]

theorem parseVal_ws (f : Nat) (p s : List Char) (h : ∀ c ∈ p, isWs c = true) :
    parseVal (f + 1) (p ++ s) = parseVal (f + 1) s := by
  rw [parseVal, parseVal, skipWs_append_ws p s h]

theorem nl_indent_ws (clvl : Nat) : ∀ c ∈ '\n' :: indentOf clvl, isWs c = true := by
  intro c hc
  rcases List.mem_cons.1 hc with h | h
  · subst h; decide
  · rw [List.eq_of_mem_replicate h]; decide

theorem skipWs_nl_indent {c : Char} (clvl : Nat) (rest : List Char)
    (h : isWs c = false) :
    skipWs ('\n' :: (indentOf clvl ++ c :: rest)) = c :: rest := by
  rw [show '\n' :: (indentOf clvl ++ c :: rest)
      = ('\n' :: indentOf clvl) ++ (c :: rest) from rfl]
  rw [skipWs_append_ws _ _ (nl_indent_ws clvl), skipWs_cons_of_not rest h]

/-- The serialization of a value begins with a significant character that is
not a closing bracket. -/
theorem serAt_head (lvl : Nat) (v : JVal) :
    ∃ c t, serAt lvl v = c :: t ∧ isWs c = false ∧ ¬(c = ']') := by
  cases v with
  | jnull => exact ⟨'n', _, rfl, by decide, by decide⟩
  | jbool b => cases b with
    | true => exact ⟨'t', _, rfl, by decide, by decide⟩
    | false => exact ⟨'f', _, rfl, by decide, by decide⟩
  | jnum i =>
    by_cases hi : i < 0
    · refine ⟨'-', natToDigits (-i).toNat, ?_, by decide, by decide⟩
      show (intStr i).data = _
      simp [intStr, hi]
    · obtain ⟨c, cs, hcons, hdig⟩ := head_natToDigits_isDig i.toNat
      refine ⟨c, cs, ?_, ?_, ?_⟩
      · show (intStr i).data = _
        simp [intStr, hi, hcons]
      · simp only [isWs, Bool.or_eq_false_iff, beq_eq_false_iff_ne, ne_eq]
        refine ⟨⟨⟨fun h => ?_, fun h => ?_⟩, fun h => ?_⟩, fun h => ?_⟩ <;>
          (subst h; simp [isDig] at hdig)
      · intro h
        subst h
        simp [isDig] at hdig
  | jstr s => exact ⟨'"', _, rfl, by decide, by decide⟩
  | jarr xs => cases xs with
    | nil => exact ⟨'[', _, rfl, by decide, by decide⟩
    | cons x xs => exact ⟨'[', _, rfl, by decide, by decide⟩
  | jobj kvs => cases kvs with
    | nil => exact ⟨obrace, _, rfl, by decide, by decide⟩
    | cons kv tl =>
      obtain ⟨k, v⟩ := kv
      exact ⟨obrace, _, rfl, by decide, by decide⟩

/-- Starting predicate used to keep the number reader from overrunning into
the following characters. -/
def NoDigStart (s : List Char) : Prop :=
  ∀ c t, s = c :: t → isDig c = false

theorem noDigStart_cons {c : Char} (t : List Char) (h : isDig c = false) :
    NoDigStart (c :: t) := by
  intro c2 t2 he
  injection he with h1 _
  rw [← h1]
  exact h

theorem noDigStart_serArrItems (ilvl : Nat) (xs : List JVal) {c : Char}
    (z : List Char) (h : isDig c = false) :
    NoDigStart (serArrItems ilvl xs ++ c :: z) := by
  cases xs with
  | nil => exact noDigStart_cons z h
  | cons x xs => exact noDigStart_cons _ (by decide)

theorem noDigStart_serObjItems (ilvl : Nat) (kvs : List (String × JVal))
    {c : Char} (z : List Char) (h : isDig c = false) :
    NoDigStart (serObjItems ilvl kvs ++ c :: z) := by
  cases kvs with
  | nil => exact noDigStart_cons z h
  | cons kv tl =>
    obtain ⟨k, v⟩ := kv
    exact noDigStart_cons _ (by decide)

/-! ## Fuel accounting for the round trip -/

mutual
/-- Fuel needed by the reader for one serialized value. -/
def jweight : JVal → Nat
  | .jnull => 1
  | .jbool _ => 1
  | .jnum _ => 1
  | .jstr s => 1 + escFuel s.data
  | .jarr xs => 1 + jweightList xs
  | .jobj kvs => 1 + jweightKvs kvs

/-- Fuel needed by the reader for serialized array items. -/
def jweightList : List JVal → Nat
  | [] => 1
  | x :: xs => 1 + jweight x + jweightList xs

/-- Fuel needed by the reader for serialized object members. -/
def jweightKvs : List (String × JVal) → Nat
  | [] => 1
  | (k, v) :: tl => 2 + escFuel k.data + jweight v + jweightKvs tl
end

theorem escSteps_le_escChar (c : Char) :
    escSteps c ≤ (jsonEscapeChar c).length := by
  by_cases h1 : c = '"'
  · subst h1; decide
  · by_cases h2 : c = '\\'
    · subst h2; decide
    · by_cases h3 : c = '\n'
      · subst h3; decide
      · by_cases h4 : c = '\r'
        · subst h4; decide
        · by_cases h5 : c = '\t'
          · subst h5; decide
          · by_cases h6 : c.toNat = 8
            · have he : jsonEscapeChar c = ['\\', 'b'] := by
                simp [jsonEscapeChar, h1, h2, h3, h4, h5, h6]
              have hs : escSteps c = 2 := by simp [escSteps, h6]
              rw [he, hs]
              decide
            · by_cases h7 : c.toNat = 12
              · have he : jsonEscapeChar c = ['\\', 'f'] := by
                  simp [jsonEscapeChar, h1, h2, h3, h4, h5, h6, h7]
                have hs : escSteps c = 2 := by simp [escSteps, h7]
                rw [he, hs]
                decide
              · by_cases h8 : 32 ≤ c.toNat ∧ c.toNat ≤ 126
                · have h8b : (32 ≤ c.toNat && c.toNat ≤ 126) = true := by
                    simp [h8.1, h8.2]
                  have he : jsonEscapeChar c = [c] := by
                    simp [jsonEscapeChar, h1, h2, h3, h4, h5, h6, h7, h8b]
                  have hs : escSteps c = 1 := by
                    simp [escSteps, h1, h2, h3, h4, h5, h6, h7, h8]
                  rw [he, hs]
                  simp
                · have h8b : (32 ≤ c.toNat && c.toNat ≤ 126) = false := by
                    simp only [Bool.and_eq_false_iff, decide_eq_false_iff_not]
                    omega
                  by_cases h9 : c.toNat < 65536
                  · have he : jsonEscapeChar c = uEscape c.toNat := by
                      simp [jsonEscapeChar, h1, h2, h3, h4, h5, h6, h7, h8b, h9]
                    have hs : escSteps c = 3 := by
                      simp [escSteps, h1, h2, h3, h4, h5, h6, h7, h8, h9]
                    rw [he, hs, uEscape]
                    simp
                  · have he : jsonEscapeChar c =
                        uEscape (55296 + (c.toNat - 65536) / 1024) ++
                        uEscape (56320 + (c.toNat - 65536) % 1024) := by
                      simp [jsonEscapeChar, h1, h2, h3, h4, h5, h6, h7, h8b, h9]
                    have hs : escSteps c = 4 := by
                      simp [escSteps, h1, h2, h3, h4, h5, h6, h7, h8, h9]
                    rw [he, hs, uEscape, uEscape]
                    simp

theorem escFuel_le_escapeList (cs : List Char) :
    escFuel cs ≤ (escapeList cs).length := by
  induction cs with
  | nil => simp [escFuel, escapeList]
  | cons c cs ih =>
    have := escSteps_le_escChar c
    simp only [escFuel, escapeList, List.length_append]
    omega

theorem intStr_data_ne_nil (i : Int) : (intStr i).data ≠ [] := by
  by_cases hi : i < 0
  · simp [intStr, hi]
  · simp [intStr, hi]
    exact natToDigits_ne_nil i.toNat

mutual
theorem jweight_le_len : ∀ (lvl : Nat) (v : JVal),
    jweight v ≤ (serAt lvl v).length
  | _, .jnull => by
    show (1 : Nat) ≤ (['n', 'u', 'l', 'l'] : List Char).length
    decide
  | _, .jbool true => by
    show (1 : Nat) ≤ (['t', 'r', 'u', 'e'] : List Char).length
    decide
  | _, .jbool false => by
    show (1 : Nat) ≤ (['f', 'a', 'l', 's', 'e'] : List Char).length
    decide
  | _, .jnum i => by
    show jweight (.jnum i) ≤ (intStr i).data.length
    have h1 : jweight (.jnum i) = 1 := rfl
    have h2 : (intStr i).data.length ≠ 0 :=
      fun h => intStr_data_ne_nil i (List.length_eq_zero.1 h)
    omega
  | _, .jstr s => by
    show 1 + escFuel s.data ≤ ('"' :: (escapeList s.data ++ ['"'])).length
    have := escFuel_le_escapeList s.data
    simp only [List.length_cons, List.length_append, List.length_singleton]
    omega
  | _, .jarr [] => by
    show (1 : Nat) + 1 ≤ (['[', ']'] : List Char).length
    decide
  | lvl, .jarr (x :: xs) => by
    have h1 := jweight_le_len (lvl + 1) x
    have h2 := jweightList_le_len (lvl + 1) xs
    show 1 + (1 + jweight x + jweightList xs) ≤
      ('[' :: '\n' :: (indentOf (lvl + 1) ++ serAt (lvl + 1) x ++
        serArrItems (lvl + 1) xs ++ '\n' :: (indentOf lvl ++ [']']))).length
    simp only [List.length_cons, List.length_append, List.length_singleton]
    omega
  | _, .jobj [] => by
    show (1 : Nat) + 1 ≤ ([obrace, cbrace] : List Char).length
    decide
  | lvl, .jobj ((k, v) :: tl) => by
    have h1 := jweight_le_len (lvl + 1) v
    have h2 := jweightKvs_le_len (lvl + 1) tl
    have h3 := escFuel_le_escapeList k.data
    show 1 + (2 + escFuel k.data + jweight v + jweightKvs tl) ≤
      (obrace :: '\n' :: (indentOf (lvl + 1) ++ jsonEncodeString k ++
        ':' :: ' ' :: serAt (lvl + 1) v ++ serObjItems (lvl + 1) tl ++
        '\n' :: (indentOf lvl ++ [cbrace]))).length
    simp only [List.length_cons, List.length_append, List.length_singleton,
      jsonEncodeString]
    omega

theorem jweightList_le_len : ∀ (lvl : Nat) (xs : List JVal),
    jweightList xs ≤ (serArrItems lvl xs).length + 1
  | _, [] => by
    show (1 : Nat) ≤ ([] : List Char).length + 1
    decide
  | lvl, x :: xs => by
    have h1 := jweight_le_len lvl x
    have h2 := jweightList_le_len lvl xs
    show 1 + jweight x + jweightList xs ≤
      (',' :: '\n' :: (indentOf lvl ++ serAt lvl x ++
        serArrItems lvl xs)).length + 1
    simp only [List.length_cons, List.length_append]
    omega

theorem jweightKvs_le_len : ∀ (lvl : Nat) (kvs : List (String × JVal)),
    jweightKvs kvs ≤ (serObjItems lvl kvs).length + 1
  | _, [] => by
    show (1 : Nat) ≤ ([] : List Char).length + 1
    decide
  | lvl, (k, v) :: tl => by
    have h1 := jweight_le_len lvl v
    have h2 := jweightKvs_le_len lvl tl
    have h3 := escFuel_le_escapeList k.data
    show 2 + escFuel k.data + jweight v + jweightKvs tl ≤
      (',' :: '\n' :: (indentOf lvl ++ jsonEncodeString k ++
        ':' :: ' ' :: serAt lvl v ++ serObjItems lvl tl)).length + 1
    simp only [List.length_cons, List.length_append, jsonEncodeString,
      List.length_singleton]
    omega
end

theorem isDig_not_ws {c : Char} (h : isDig c = true) : isWs c = false := by
  simp only [isWs, Bool.or_eq_false_iff, beq_eq_false_iff_ne, ne_eq]
  refine ⟨⟨⟨fun he => ?_, fun he => ?_⟩, fun he => ?_⟩, fun he => ?_⟩ <;>
    (subst he; exact absurd h (by decide))

theorem isDig_dispatch {c : Char} (h : isDig c = true) :
    ¬(c = 'n') ∧ ¬(c = 't') ∧ ¬(c = 'f') ∧ ¬(c = '"') ∧ ¬(c = '[') ∧
    ¬(c = obrace) := by
  refine ⟨?_, ?_, ?_, ?_, ?_, ?_⟩ <;>
    (intro he; subst he; exact absurd h (by decide))

theorem parseValCore_quote (pv : List Char → Option (JVal × List Char))
    (pa : List Char → Option (List JVal × List Char))
    (po : List Char → Option (List (String × JVal) × List Char))
    (pj : List Char → Option (List Char × List Char)) (r : List Char) :
    parseValCore pv pa po pj '"' r
      = (pj r).map (fun p => (.jstr (String.mk p.1), p.2)) := rfl

theorem parseValCore_lbracket (pv : List Char → Option (JVal × List Char))
    (pa : List Char → Option (List JVal × List Char))
    (po : List Char → Option (List (String × JVal) × List Char))
    (pj : List Char → Option (List Char × List Char)) (r : List Char) :
    parseValCore pv pa po pj '[' r
      = withHead (skipWs r) (fun c2 r2 =>
          if c2 = ']' then some (.jarr [], r2)
          else
            (pv (c2 :: r2)).bind (fun p =>
              (pa p.2).map (fun q => (.jarr (p.1 :: q.1), q.2)))) := rfl

theorem parseValCore_obrace (pv : List Char → Option (JVal × List Char))
    (pa : List Char → Option (List JVal × List Char))
    (po : List Char → Option (List (String × JVal) × List Char))
    (pj : List Char → Option (List Char × List Char)) (r : List Char) :
    parseValCore pv pa po pj obrace r
      = withHead (skipWs r) (fun c2 r2 =>
          if c2 = cbrace then some (.jobj [], r2)
          else if c2 = '"' then
            (pj r2).bind (fun kp =>
              withHead (skipWs kp.2) (fun c3 r4 =>
                if c3 = ':' then
                  (pv r4).bind (fun p =>
                    (po p.2).map (fun q =>
                      (.jobj ((String.mk kp.1, p.1) :: q.1), q.2)))
                else none))
          else none) := rfl

theorem parseValCore_num (pv : List Char → Option (JVal × List Char))
    (pa : List Char → Option (List JVal × List Char))
    (po : List Char → Option (List (String × JVal) × List Char))
    (pj : List Char → Option (List Char × List Char)) {c : Char}
    (r : List Char) (h1 : ¬(c = 'n')) (h2 : ¬(c = 't')) (h3 : ¬(c = 'f'))
    (h4 : ¬(c = '"')) (h5 : ¬(c = '[')) (h6 : ¬(c = obrace)) :
    parseValCore pv pa po pj c r
      = (parseNum (c :: r)).map (fun p => (.jnum p.1, p.2)) := by
  rw [parseValCore, if_neg h1, if_neg h2, if_neg h3, if_neg h4, if_neg h5,
    if_neg h6]

theorem parseArrCore_comma (pv : List Char → Option (JVal × List Char))
    (pa : List Char → Option (List JVal × List Char)) (r : List Char) :
    parseArrCore pv pa ',' r
      = (pv r).bind (fun p => (pa p.2).map (fun q => (p.1 :: q.1, q.2))) := rfl

theorem parseObjCore_comma (pv : List Char → Option (JVal × List Char))
    (po : List Char → Option (List (String × JVal) × List Char))
    (pj : List Char → Option (List Char × List Char)) (r : List Char) :
    parseObjCore pv po pj ',' r
      = withHead (skipWs r) (fun c2 r2 =>
          if c2 = '"' then
            (pj r2).bind (fun kp =>
              withHead (skipWs kp.2) (fun c3 r4 =>
                if c3 = ':' then
                  (pv r4).bind (fun p =>
                    (po p.2).map (fun q =>
                      ((String.mk kp.1, p.1) :: q.1, q.2)))
                else none))
          else none) := rfl

theorem takeWhile_append_eq (p : Char → Bool) (a b : List Char)
    (ha : ∀ x ∈ a, p x = true) (hb : ∀ c t, b = c :: t → p c = false) :
    (a ++ b).takeWhile p = a ∧ (a ++ b).dropWhile p = b := by
  induction a with
  | nil =>
    cases b with
    | nil => exact ⟨rfl, rfl⟩
    | cons c t =>
      simp only [List.nil_append, List.takeWhile_cons, List.dropWhile_cons,
        hb c t rfl]
      exact ⟨by trivial, by trivial⟩
  | cons x xs ih =>
    have hx := ha x (List.mem_cons_self x xs)
    obtain ⟨ht, hd⟩ := ih (fun y hy => ha y (List.mem_cons_of_mem x hy))
    simp only [List.cons_append, List.takeWhile_cons, List.dropWhile_cons, hx,
      if_true, ite_true, ht, hd]
    exact ⟨by trivial, by trivial⟩

theorem parseNatDigits_natToDigits (n : Nat) (rest : List Char)
    (hrest : ∀ c t, rest = c :: t → isDig c = false) :
    parseNatDigits (natToDigits n ++ rest) = some (n, rest) := by
  obtain ⟨htake, hdrop⟩ :=
    takeWhile_append_eq isDig (natToDigits n) rest (natToDigits_all_digits n)
      hrest
  obtain ⟨c, cs, hcons, hcdig⟩ := head_natToDigits_isDig n
  have hval : digitsVal (natToDigits n) 0 = n := by
    have h := digitsVal_natToDigits n 0
    simpa using h
  rw [parseNatDigits, htake, hdrop, hcons]
  show some (digitsVal (c :: cs) 0, rest) = some (n, rest)
  rw [← hcons, hval]

theorem parseNum_intStr (i : Int) (rest : List Char)
    (hrest : ∀ c t, rest = c :: t → isDig c = false) :
    parseNum ((intStr i).data ++ rest) = some (i, rest) := by
  by_cases hi : i < 0
  · have hdata : (intStr i).data = '-' :: natToDigits (-i).toNat := by
      simp [intStr, hi]
    rw [hdata]
    rw [show ('-' :: natToDigits (-i).toNat) ++ rest
        = '-' :: (natToDigits (-i).toNat ++ rest) from rfl]
    rw [show parseNum ('-' :: (natToDigits (-i).toNat ++ rest))
        = (match parseNatDigits (natToDigits (-i).toNat ++ rest) with
           | some (n, r) => some (-(n : Int), r)
           | none => none) from rfl]
    rw [parseNatDigits_natToDigits _ _ hrest]
    show some (-(((-i).toNat : Int)), rest) = some (i, rest)
    rw [show -(((-i).toNat : Int)) = i from by omega]
  · have hdata : (intStr i).data = natToDigits i.toNat := by
      simp [intStr, hi]
    obtain ⟨c, cs, hcons, hdig⟩ := head_natToDigits_isDig i.toNat
    have hcne : ¬(c = '-') := by
      intro h
      subst h
      simp [isDig] at hdig
    have hstep : parseNum ((intStr i).data ++ rest)
        = (match parseNatDigits ((intStr i).data ++ rest) with
           | some (n, r) => some ((n : Int), r)
           | none => none) := by
      rw [hdata, hcons, List.cons_append, parseNum, if_neg hcne,
        ← List.cons_append]
    rw [hstep, hdata, parseNatDigits_natToDigits _ _ hrest]
    show some (((i.toNat : Int)), rest) = some (i, rest)
    rw [show ((i.toNat : Int)) = i from by omega]

theorem jweight_pos (v : JVal) : 1 ≤ jweight v := by
  cases v with
  | jnull => show (1 : Nat) ≤ 1; decide
  | jbool b => show (1 : Nat) ≤ 1; decide
  | jnum i => show (1 : Nat) ≤ 1; decide
  | jstr s => show (1 : Nat) ≤ 1 + escFuel s.data; omega
  | jarr xs => show (1 : Nat) ≤ 1 + jweightList xs; omega
  | jobj kvs => show (1 : Nat) ≤ 1 + jweightKvs kvs; omega

theorem parser_roundtrip : ∀ fuel : Nat,
    (∀ (v : JVal) (lvl : Nat) (rest : List Char), jweight v < fuel →
      NoDigStart rest →
      parseVal fuel (serAt lvl v ++ rest) = some (v, rest)) ∧
    (∀ (xs : List JVal) (ilvl clvl : Nat) (rest : List Char),
      jweightList xs < fuel →
      parseArrRest fuel
        (serArrItems ilvl xs ++ '\n' :: (indentOf clvl ++ ']' :: rest))
        = some (xs, rest)) ∧
    (∀ (kvs : List (String × JVal)) (ilvl clvl : Nat) (rest : List Char),
      jweightKvs kvs < fuel →
      parseObjRest fuel
        (serObjItems ilvl kvs ++ '\n' :: (indentOf clvl ++ cbrace :: rest))
        = some (kvs, rest)) := by
  intro fuel
  induction fuel with
  | zero =>
    refine ⟨?_, ?_, ?_⟩
    · intro v lvl rest hw _
      exact absurd hw (Nat.not_lt_zero _)
    · intro xs ilvl clvl rest hw
      exact absurd hw (Nat.not_lt_zero _)
    · intro kvs ilvl clvl rest hw
      exact absurd hw (Nat.not_lt_zero _)
  | succ f ih =>
    obtain ⟨ihv, iha, iho⟩ := ih
    refine ⟨?_, ?_, ?_⟩
    · -- one value
      intro v lvl rest hw hnd
      cases v with
      | jnull => rfl
      | jbool b => cases b <;> rfl
      | jnum i =>
        by_cases hi : i < 0
        · have hd2 : (intStr i).data = '-' :: natToDigits (-i).toNat := by
            simp [intStr, hi]
          rw [show serAt lvl (.jnum i) = (intStr i).data from rfl, hd2,
            List.cons_append, parseVal_step f _ (by decide)]
          rw [parseValCore_num _ _ _ _ _ (by decide) (by decide) (by decide)
            (by decide) (by decide) (by decide)]
          rw [← List.cons_append, ← hd2, parseNum_intStr i rest hnd]
          rfl
        · have hd2 : (intStr i).data = natToDigits i.toNat := by
            simp [intStr, hi]
          obtain ⟨c, cs, hcons, hdig⟩ := head_natToDigits_isDig i.toNat
          obtain ⟨hn1, hn2, hn3, hn4, hn5, hn6⟩ := isDig_dispatch hdig
          rw [show serAt lvl (.jnum i) = (intStr i).data from rfl, hd2, hcons,
            List.cons_append, parseVal_step f _ (isDig_not_ws hdig)]
          rw [parseValCore_num _ _ _ _ _ hn1 hn2 hn3 hn4 hn5 hn6]
          rw [← List.cons_append, ← hcons, ← hd2, parseNum_intStr i rest hnd]
          rfl
      | jstr s =>
        have hesc : escFuel s.data < f := by
          have he : jweight (.jstr s) = 1 + escFuel s.data := rfl
          omega
        rw [show serAt lvl (.jstr s) ++ rest
            = '"' :: (escapeList s.data ++ '"' :: rest) from by
          show ('"' :: (escapeList s.data ++ ['"'])) ++ rest = _
          simp]
        rw [parseVal_step f _ (by decide), parseValCore_quote,
          parseJStr_escape s.data f rest hesc]
        simp [string_mk_data]
      | jarr xs =>
        cases xs with
        | nil => rfl
        | cons x xs =>
          have hwx : jweight x < f := by
            have he : jweight (.jarr (x :: xs))
                = 1 + (1 + jweight x + jweightList xs) := rfl
            omega
          have hwxs : jweightList xs < f := by
            have he : jweight (.jarr (x :: xs))
                = 1 + (1 + jweight x + jweightList xs) := rfl
            omega
          obtain ⟨ch, ct, hcons, hwsx, hnb⟩ := serAt_head (lvl + 1) x
          rw [show serAt lvl (.jarr (x :: xs)) ++ rest
              = '[' :: '\n' :: (indentOf (lvl + 1) ++ (serAt (lvl + 1) x ++
                  (serArrItems (lvl + 1) xs ++
                    '\n' :: (indentOf lvl ++ ']' :: rest)))) from by
            show ('[' :: '\n' :: (indentOf (lvl + 1) ++ serAt (lvl + 1) x ++
              serArrItems (lvl + 1) xs ++
              '\n' :: (indentOf lvl ++ [']']))) ++ rest = _
            simp]
          rw [parseVal_step f _ (by decide), parseValCore_lbracket]
          rw [hcons, List.cons_append, skipWs_nl_indent (lvl + 1) _ hwsx,
            withHead_cons]
          simp only [if_neg hnb]
          rw [← List.cons_append, ← hcons,
            ihv x (lvl + 1) _ hwx (noDigStart_serArrItems _ _ _ (by decide))]
          simp only [Option.some_bind]
          rw [iha xs (lvl + 1) lvl rest hwxs]
          rfl
      | jobj kvs =>
        cases kvs with
        | nil => rfl
        | cons kv tl =>
          obtain ⟨k, v⟩ := kv
          have hwk : escFuel k.data < f := by
            have he : jweight (.jobj ((k, v) :: tl))
                = 1 + (2 + escFuel k.data + jweight v + jweightKvs tl) := rfl
            omega
          have hwv : jweight v < f := by
            have he : jweight (.jobj ((k, v) :: tl))
                = 1 + (2 + escFuel k.data + jweight v + jweightKvs tl) := rfl
            omega
          have hwtl : jweightKvs tl < f := by
            have he : jweight (.jobj ((k, v) :: tl))
                = 1 + (2 + escFuel k.data + jweight v + jweightKvs tl) := rfl
            omega
          obtain ⟨f2, rfl⟩ : ∃ f2, f = f2 + 1 := by
            refine ⟨f - 1, ?_⟩
            have he : jweight (.jobj ((k, v) :: tl))
                = 1 + (2 + escFuel k.data + jweight v + jweightKvs tl) := rfl
            omega
          rw [show serAt lvl (.jobj ((k, v) :: tl)) ++ rest
              = obrace :: '\n' :: (indentOf (lvl + 1) ++ ('"' ::
                  (escapeList k.data ++ '"' ::
                    (':' :: ' ' :: (serAt (lvl + 1) v ++
                      (serObjItems (lvl + 1) tl ++
                        '\n' :: (indentOf lvl ++ cbrace :: rest))))))) from by
            show (obrace :: '\n' :: (indentOf (lvl + 1) ++ jsonEncodeString k ++
              ':' :: ' ' :: serAt (lvl + 1) v ++ serObjItems (lvl + 1) tl ++
              '\n' :: (indentOf lvl ++ [cbrace]))) ++ rest = _
            simp [jsonEncodeString]]
          rw [parseVal_step _ _ (by decide), parseValCore_obrace]
          rw [skipWs_nl_indent (lvl + 1) _ (by decide), withHead_cons]
          show (parseJStr (f2 + 1) (escapeList k.data ++ '"' ::
              (':' :: ' ' :: (serAt (lvl + 1) v ++
                (serObjItems (lvl + 1) tl ++
                  '\n' :: (indentOf lvl ++ cbrace :: rest)))))).bind (fun kp =>
            withHead (skipWs kp.2) (fun c3 r4 =>
              if c3 = ':' then
                (parseVal (f2 + 1) r4).bind (fun p =>
                  (parseObjRest (f2 + 1) p.2).map (fun q =>
                    (JVal.jobj ((String.mk kp.1, p.1) :: q.1), q.2)))
              else none)) = some (JVal.jobj ((k, v) :: tl), rest)
          rw [parseJStr_escape k.data (f2 + 1) _ hwk]
          simp only [Option.some_bind]
          show (parseVal (f2 + 1) (' ' :: (serAt (lvl + 1) v ++
              (serObjItems (lvl + 1) tl ++
                '\n' :: (indentOf lvl ++ cbrace :: rest))))).bind (fun p =>
            (parseObjRest (f2 + 1) p.2).map (fun q =>
              (JVal.jobj ((String.mk k.data, p.1) :: q.1), q.2)))
            = some (JVal.jobj ((k, v) :: tl), rest)
          rw [show (' ' :: (serAt (lvl + 1) v ++ (serObjItems (lvl + 1) tl ++
              '\n' :: (indentOf lvl ++ cbrace :: rest))))
              = [' '] ++ (serAt (lvl + 1) v ++ (serObjItems (lvl + 1) tl ++
              '\n' :: (indentOf lvl ++ cbrace :: rest))) from rfl]
          rw [parseVal_ws f2 _ _ (by intro c hc; simp at hc; subst hc; decide)]
          rw [ihv v (lvl + 1) _ hwv (noDigStart_serObjItems _ _ _ (by decide))]
          simp only [Option.some_bind]
          rw [iho tl (lvl + 1) lvl rest hwtl]
          rfl
    · -- array items
      intro xs ilvl clvl rest hw
      cases xs with
      | nil =>
        rw [show serArrItems ilvl ([] : List JVal) ++
            '\n' :: (indentOf clvl ++ ']' :: rest)
            = '\n' :: (indentOf clvl ++ ']' :: rest) from rfl]
        rw [parseArrRest, skipWs_nl_indent clvl _ (by decide)]
        rfl
      | cons x xs =>
        have hwx : jweight x < f := by
          have he : jweightList (x :: xs)
              = 1 + jweight x + jweightList xs := rfl
          omega
        have hwxs : jweightList xs < f := by
          have he : jweightList (x :: xs)
              = 1 + jweight x + jweightList xs := rfl
          omega
        obtain ⟨f2, rfl⟩ : ∃ f2, f = f2 + 1 :=
          ⟨f - 1, by have := jweight_pos x; omega⟩
        rw [show serArrItems ilvl (x :: xs) ++
            '\n' :: (indentOf clvl ++ ']' :: rest)
            = ',' :: '\n' :: (indentOf ilvl ++ (serAt ilvl x ++
                (serArrItems ilvl xs ++
                  '\n' :: (indentOf clvl ++ ']' :: rest)))) from by
          show (',' :: '\n' :: (indentOf ilvl ++ serAt ilvl x ++
            serArrItems ilvl xs)) ++ '\n' :: (indentOf clvl ++ ']' :: rest) = _
          simp]
        rw [parseArrRest_step _ _ (by decide), parseArrCore_comma]
        rw [show ('\n' :: (indentOf ilvl ++ (serAt ilvl x ++
            (serArrItems ilvl xs ++ '\n' :: (indentOf clvl ++ ']' :: rest)))))
            = ('\n' :: indentOf ilvl) ++ (serAt ilvl x ++
            (serArrItems ilvl xs ++ '\n' :: (indentOf clvl ++ ']' :: rest)))
            from rfl]
        rw [parseVal_ws f2 _ _ (nl_indent_ws ilvl)]
        rw [ihv x ilvl _ hwx (noDigStart_serArrItems _ _ _ (by decide))]
        simp only [Option.some_bind]
        rw [iha xs ilvl clvl rest hwxs]
        rfl
    · -- object members
      intro kvs ilvl clvl rest hw
      cases kvs with
      | nil =>
        rw [show serObjItems ilvl ([] : List (String × JVal)) ++
            '\n' :: (indentOf clvl ++ cbrace :: rest)
            = '\n' :: (indentOf clvl ++ cbrace :: rest) from rfl]
        rw [parseObjRest, skipWs_nl_indent clvl _ (by decide)]
        rfl
      | cons kv tl =>
        obtain ⟨k, v⟩ := kv
        have hwk : escFuel k.data < f := by
          have he : jweightKvs ((k, v) :: tl)
              = 2 + escFuel k.data + jweight v + jweightKvs tl := rfl
          omega
        have hwv : jweight v < f := by
          have he : jweightKvs ((k, v) :: tl)
              = 2 + escFuel k.data + jweight v + jweightKvs tl := rfl
          omega
        have hwtl : jweightKvs tl < f := by
          have he : jweightKvs ((k, v) :: tl)
              = 2 + escFuel k.data + jweight v + jweightKvs tl := rfl
          omega
        obtain ⟨f2, rfl⟩ : ∃ f2, f = f2 + 1 := by
          refine ⟨f - 1, ?_⟩
          have he : jweightKvs ((k, v) :: tl)
              = 2 + escFuel k.data + jweight v + jweightKvs tl := rfl
          omega
        rw [show serObjItems ilvl ((k, v) :: tl) ++
            '\n' :: (indentOf clvl ++ cbrace :: rest)
            = ',' :: '\n' :: (indentOf ilvl ++ ('"' ::
                (escapeList k.data ++ '"' ::
                  (':' :: ' ' :: (serAt ilvl v ++
                    (serObjItems ilvl tl ++
                      '\n' :: (indentOf clvl ++ cbrace :: rest))))))) from by
          show (',' :: '\n' :: (indentOf ilvl ++ jsonEncodeString k ++
            ':' :: ' ' :: serAt ilvl v ++ serObjItems ilvl tl)) ++
            '\n' :: (indentOf clvl ++ cbrace :: rest) = _
          simp [jsonEncodeString]]
        rw [parseObjRest_step _ _ (by decide), parseObjCore_comma]
        rw [skipWs_nl_indent ilvl _ (by decide), withHead_cons]
        show (parseJStr (f2 + 1) (escapeList k.data ++ '"' ::
            (':' :: ' ' :: (serAt ilvl v ++ (serObjItems ilvl tl ++
              '\n' :: (indentOf clvl ++ cbrace :: rest)))))).bind (fun kp =>
          withHead (skipWs kp.2) (fun c3 r4 =>
            if c3 = ':' then
              (parseVal (f2 + 1) r4).bind (fun p =>
                (parseObjRest (f2 + 1) p.2).map (fun q =>
                  ((String.mk kp.1, p.1) :: q.1, q.2)))
            else none)) = some ((k, v) :: tl, rest)
        rw [parseJStr_escape k.data (f2 + 1) _ hwk]
        simp only [Option.some_bind]
        show (parseVal (f2 + 1) (' ' :: (serAt ilvl v ++
            (serObjItems ilvl tl ++
              '\n' :: (indentOf clvl ++ cbrace :: rest))))).bind (fun p =>
          (parseObjRest (f2 + 1) p.2).map (fun q =>
            ((String.mk k.data, p.1) :: q.1, q.2)))
          = some ((k, v) :: tl, rest)
        rw [show (' ' :: (serAt ilvl v ++ (serObjItems ilvl tl ++
            '\n' :: (indentOf clvl ++ cbrace :: rest))))
            = [' '] ++ (serAt ilvl v ++ (serObjItems ilvl tl ++
            '\n' :: (indentOf clvl ++ cbrace :: rest))) from rfl]
        rw [parseVal_ws f2 _ _ (by intro c hc; simp at hc; subst hc; decide)]
        rw [ihv v ilvl _ hwv (noDigStart_serObjItems _ _ _ (by decide))]
        simp only [Option.some_bind]
        rw [iho tl ilvl clvl rest hwtl]
        rfl

/-! ## Canonical documents and the round trip -/

theorem lexLt_le : ∀ (a b : List Char), lexLt a b = true → lexLe a b = true
  | [], [] => by intro; rfl
  | [], _ :: _ => by intro; rfl
  | _ :: _, [] => by intro h; exact absurd h (by simp [lexLt])
  | a :: as, b :: bs => by
    intro h
    simp only [lexLt, Bool.or_eq_true, Bool.and_eq_true, decide_eq_true_eq,
      beq_iff_eq] at h
    simp only [lexLe, Bool.or_eq_true, Bool.and_eq_true, decide_eq_true_eq,
      beq_iff_eq]
    rcases h with h | ⟨h1, h2⟩
    · exact Or.inl h
    · exact Or.inr ⟨h1, lexLt_le as bs h2⟩

theorem keyLt_le {a b : String} (h : keyLt a b = true) : keyLe a b = true :=
  lexLt_le a.data b.data h

theorem sortKvs_of_sorted :
    ∀ (l : List (String × JVal)),
      l.Pairwise (fun p q => keyLt p.1 q.1 = true) → sortKvs l = l := by
  intro l hl
  induction l with
  | nil => rfl
  | cons p tl ih =>
    rw [List.pairwise_cons] at hl
    rw [sortKvs, ih hl.2]
    cases tl with
    | nil => rfl
    | cons q tl2 =>
      have hle : keyLe p.1 q.1 = true :=
        keyLt_le (hl.1 q (List.mem_cons_self q tl2))
      rw [kvInsert, if_pos hle]

/-- A document in the canonical form that a Python dict value determines:
every object's keys are strictly increasing (dicts have no duplicate keys
and compare as unordered mappings). -/
inductive Canonical : JVal → Prop where
  | cnull : Canonical .jnull
  | cbool (b : Bool) : Canonical (.jbool b)
  | cnum (i : Int) : Canonical (.jnum i)
  | cstr (s : String) : Canonical (.jstr s)
  | carr (xs : List JVal) : (∀ v ∈ xs, Canonical v) → Canonical (.jarr xs)
  | cobj (kvs : List (String × JVal)) : (∀ p ∈ kvs, Canonical p.2) →
      kvs.Pairwise (fun p q => keyLt p.1 q.1 = true) → Canonical (.jobj kvs)

theorem canonList_eq_self (xs : List JVal) (h : ∀ v ∈ xs, canon v = v) :
    canonList xs = xs := by
  induction xs with
  | nil => rfl
  | cons x xs ih =>
    rw [canonList, h x (List.mem_cons_self x xs),
      ih (fun v hv => h v (List.mem_cons_of_mem x hv))]

theorem canonKvs_eq_self (kvs : List (String × JVal))
    (h : ∀ p ∈ kvs, canon p.2 = p.2) : canonKvs kvs = kvs := by
  induction kvs with
  | nil => rfl
  | cons p tl ih =>
    obtain ⟨k, v⟩ := p
    rw [canonKvs, ih (fun q hq => h q (List.mem_cons_of_mem _ hq))]
    have hv : canon v = v := h (k, v) (List.mem_cons_self _ tl)
    rw [hv]

theorem canon_eq_self {d : JVal} (h : Canonical d) : canon d = d := by
  induction h with
  | cnull => rfl
  | cbool b => rfl
  | cnum i => rfl
  | cstr s => rfl
  | carr xs _ ih =>
    rw [canon, canonList_eq_self xs ih]
  | cobj kvs _ hs ih =>
    rw [canon, canonKvs_eq_self kvs ih, sortKvs_of_sorted kvs hs]

theorem noDigStart_nil : NoDigStart [] := by
  intro c t he
  exact absurd he (by simp)

theorem jsonDecode_jsonDump (d : JVal) :
    jsonDecode (jsonDump d) = some (canon d) := by
  have hw : jweight (canon d) < (serAt 0 (canon d)).length + 1 :=
    Nat.lt_succ_of_le (jweight_le_len 0 (canon d))
  have h := (parser_roundtrip ((serAt 0 (canon d)).length + 1)).1 (canon d) 0 []
    hw noDigStart_nil
  rw [List.append_nil] at h
  rw [jsonDecode, jsonDump]
  rw [show (String.mk (serAt 0 (canon d))).data = serAt 0 (canon d) from rfl]
  rw [h]
  rfl

/-! ## The Python `str`/`repr` rendering used for the size column

The script prints `len(str(d))` as the size and uses
`str(d["schoolLocation"])` as the location.  `str` on a dict equals `repr`.
The model below renders CPython 2 `repr` on the JSON value domain; dict
items are rendered in stored order (CPython's hash order is not observable
through the uses this program makes of it: `len` is invariant under item
order, and the location value is a string, which `str` returns verbatim). -/

/-- `repr` of a byte string: quoted with `'` unless the string contains a
`'` and no `"`; backslashes, the chosen quote, newlines, carriage returns,
tabs, and non-printable bytes are escaped. -/
def pyReprStr (s : String) : String :=
  let dq : Bool := s.data.contains '\'' && !(s.data.contains '"')
  let q : Char := if dq then '"' else '\''
  let esc : Char → List Char := fun c =>
    if c = '\\' then ['\\', '\\']
    else if c = q then ['\\', q]
    else if c = '\n' then ['\\', 'n']
    else if c = '\r' then ['\\', 'r']
    else if c = '\t' then ['\\', 't']
    else if 32 ≤ c.toNat && c.toNat ≤ 126 then [c]
    else ['\\', 'x', hexDigitChar (c.toNat / 16 % 16), hexDigitChar (c.toNat % 16)]
  String.mk (q :: (s.data.flatMap esc ++ [q]))

mutual
/-- CPython 2 `repr` on the JSON value domain. -/
def pyRepr : JVal → String
  | .jnull => "None"
  | .jbool true => "True"
  | .jbool false => "False"
  | .jnum i => intStr i
  | .jstr s => pyReprStr s
  | .jarr xs => "[" ++ pyReprList xs ++ "]"
  | .jobj kvs =>
      String.mk [obrace] ++ pyReprKvs kvs ++ String.mk [cbrace]

/-- `repr` of list items, `", "`-separated. -/
def pyReprList : List JVal → String
  | [] => ""
  | [x] => pyRepr x
  | x :: xs => pyRepr x ++ ", " ++ pyReprList xs

/-- `repr` of dict items, `", "`-separated, `key: value`. -/
def pyReprKvs : List (String × JVal) → String
  | [] => ""
  | [(k, v)] => pyReprStr k ++ ": " ++ pyRepr v
  | (k, v) :: tl => pyReprStr k ++ ": " ++ pyRepr v ++ ", " ++ pyReprKvs tl
end

/-- Python 2 `str(x)`: a byte string is returned verbatim; any other value
renders as its `repr`. -/
def pyStrTop : JVal → String
  | .jstr s => s
  | v => pyRepr v

/-! ## The database rows and the external-world model -/

/-- One row of the `maps` table, the tuple
`(id, owner, document, created_at, modified_at, name)`. -/
structure SsmRecord where
  id : Int
  owner : Int
  document : JVal
  created_at : Timestamp
  modified_at : Timestamp
  name : String

/-- Python `key in d` for the document dict (`False` on non-dicts, which do
not occur in the schema). -/
def jHasKey (d : JVal) (key : String) : Bool :=
  match d with
  | .jobj kvs => kvs.any (fun p => p.1 == key)
  | _ => false

/-- Python `d[key]` for the document dict (only evaluated under a
`key in d` guard in the script; `null` as the out-of-domain default). -/
def jGet (d : JVal) (key : String) : JVal :=
  match d with
  | .jobj kvs => ((kvs.find? (fun p => p.1 == key)).map Prod.snd).getD .jnull
  | _ => .jnull

/-- A Python exception, by the classes this program distinguishes. -/
inductive PyError where
  | databaseError (msg : String)
  | otherException (msg : String)
  | baseException (msg : String)
  | attributeError (msg : String)

/-- The message printed for an exception. -/
def pyErrorMsg : PyError → String
  | .databaseError m => m
  | .otherException m => m
  | .baseException m => m
  | .attributeError m => m

/-- Whether the exception is caught by
`except (Exception, psycopg2.DatabaseError)`: everything except the
`BaseException`-only kinds (`KeyboardInterrupt`, `SystemExit`). -/
def isExceptionClass : PyError → Bool
  | .baseException _ => false
  | _ => true

/-- The outcome of a Python call: a normal return or an uncaught
exception. -/
inductive PyResult (α : Type) where
  | norm (a : α)
  | exc (e : PyError)

/-- What the external `psycopg2.connect(...)` call does in this run. -/
inductive ConnectOutcome where
  | ok (handle : Nat)
  | raises (e : PyError)

/-- `connect()`: prints the banner, attempts the connection; the
`except (Exception, DatabaseError)` clause prints any caught error; the
`finally: return conn` clause returns the handle variable in every case —
including when an uncaught (non-`Exception`) exception is in flight, which
Python discards when a `finally` block returns.  The result pairs the
stdout lines with the returned handle (`none` models Python `None`). -/
def connect : ConnectOutcome → PyResult (List String × Option Nat)
  | .ok h => .norm (["Connecting to ssm database..."], some h)
  | .raises e =>
    if isExceptionClass e then
      .norm (["Connecting to ssm database...", pyErrorMsg e], none)
    else
      .norm (["Connecting to ssm database..."], none)

/-- The sort performed by `get_maps`: `sorted(maps, key=lambda k: k[4])`,
a stable ascending sort on the last-modified timestamp. -/
def sortRecords (rows : List SsmRecord) : List SsmRecord :=
  rows.mergeSort (fun a b => tsLe a.modified_at b.modified_at)

/-- `get_maps(IX_MODIFIED_AT)`: connect, open a cursor, `SELECT * from
maps`, fetch all rows, close, print the count, and return the rows sorted
by the modified timestamp.  `rows` are the table contents; when `connect`
returns `None`, the attribute access `conn.cursor()` raises an uncaught
`AttributeError`. -/
def get_maps (rows : List SsmRecord) (co : ConnectOutcome) :
    PyResult (List String × List SsmRecord) :=
  match connect co with
  | .norm (log, some _h) =>
      .norm (log ++ ["number of maps fetched: " ++ natStrS rows.length],
        sortRecords rows)
  | .norm (_log, none) =>
      .exc (.attributeError ("NoneType object has no attribute cursor"))
  | .exc e => .exc e

/-! ## The main loop -/

/-- The inclusion test of the main loop:
`"schoolLocation" in d and owner not in [2, 20]`. -/
def includedB (r : SsmRecord) : Bool :=
  jHasKey r.document ("schoolLocation") && !(r.owner == 2 || r.owner == 20)

/-- `loc = str(d["schoolLocation"])`. -/
def locStr (d : JVal) : String := pyStrTop (jGet d ("schoolLocation"))

/-- `sz = str(len(str(d)))`. -/
def sizeStr (d : JVal) : String := natStrS (pyRepr d).length

/-- The console row printed for the `n`-th included record. -/
def rowFor (n : Nat) (r : SsmRecord) : String :=
  print_row n (locStr r.document) (sizeStr r.document)
    (strftime_YmdHM r.modified_at)

/-- The file written for an included record: its path
(`build_output_file_path(dir, loc, map_id)`) and its exact contents
(`json.dump(d, f, sort_keys=True, indent=4)`). -/
def fileFor (dir : String) (r : SsmRecord) : String × String :=
  (build_output_file_path dir (locStr r.document) r.id, jsonDump r.document)

/-- The `for map in maps:` loop of `main`, carrying the running counter
`n`; returns the printed rows, the written files, and the final counter. -/
def mainLoop (dir : String) :
    List SsmRecord → Nat → List String × List (String × String) × Nat
  | [], n => ([], [], n)
  | r :: rest, n =>
    if includedB r then
      let out := mainLoop dir rest (n + 1)
      (rowFor (n + 1) r :: out.1, fileFor dir r :: out.2.1, out.2.2)
    else mainLoop dir rest n

/-- `main` after a successful fetch: the loop applied to the sorted rows
with the counter starting at zero. -/
def runPipeline (dir : String) (rows : List SsmRecord) :
    List String × List (String × String) × Nat :=
  mainLoop dir (sortRecords rows) 0

theorem mainLoop_spec (dir : String) :
    ∀ (l : List SsmRecord) (n : Nat),
      mainLoop dir l n =
        ((List.enumFrom (n + 1) (l.filter includedB)).map
          (fun p => rowFor p.1 p.2),
         (l.filter includedB).map (fileFor dir),
         n + (l.filter includedB).length) := by
  intro l
  induction l with
  | nil => intro n; rfl
  | cons r rest ih =>
    intro n
    by_cases h : includedB r
    · rw [show mainLoop dir (r :: rest) n
          = (if includedB r then
              (rowFor (n + 1) r :: (mainLoop dir rest (n + 1)).1,
               fileFor dir r :: (mainLoop dir rest (n + 1)).2.1,
               (mainLoop dir rest (n + 1)).2.2)
            else mainLoop dir rest n) from rfl]
      rw [if_pos h, ih (n + 1)]
      simp [List.filter_cons, h, List.enumFrom, Nat.add_assoc, Nat.add_comm 1]
    · rw [show mainLoop dir (r :: rest) n
          = (if includedB r then
              (rowFor (n + 1) r :: (mainLoop dir rest (n + 1)).1,
               fileFor dir r :: (mainLoop dir rest (n + 1)).2.1,
               (mainLoop dir rest (n + 1)).2.2)
            else mainLoop dir rest n) from rfl]
      rw [if_neg h, ih n]
      simp [List.filter_cons, h]


/-! ## Supporting lemmas for the claims -/

theorem spacesStr_length (n : Nat) : (spacesStr n).length = n := by
  show (List.replicate n ' ').length = n
  exact List.length_replicate _ _

theorem get_pad2_length (s1 s2 : String) :
    (get_pad2 s1 s2).length
      = ((40 : Int) - (s1.length : Int) - (s2.length : Int)).toNat :=
  spacesStr_length _

theorem build_data (dir loc : String) (id : Int) :
    (build_output_file_path dir loc id).data
      = rstripSlash dir.data ++
        ('/' :: 's' :: 's' :: 'm' :: '-' ::
          (((pyStrip loc.data).filter
              (fun c => !(punctCodes.contains c.toNat))).map
              (fun c => if c == ' ' then '_' else c) ++
            '-' :: ((intStr id).data ++ ('.' :: 'j' :: 's' :: 'o' :: 'n' :: [])))) := by
  simp only [build_output_file_path, String.data_append, List.append_assoc]
  rfl

theorem cleanLoc_no_hyphen (loc : String) :
    '-' ∉ ((pyStrip loc.data).filter
        (fun c => !(punctCodes.contains c.toNat))).map
      (fun c => if c == ' ' then '_' else c) := by
  intro hmem
  rw [List.mem_map] at hmem
  obtain ⟨c, hc, hceq⟩ := hmem
  have hceq2 : (if c == ' ' then '_' else c) = '-' := hceq
  rw [List.mem_filter] at hc
  have hpc : (!(punctCodes.contains c.toNat)) = true := hc.2
  by_cases hsp : (c == ' ') = true
  · rw [if_pos hsp] at hceq2
    exact absurd hceq2 (by decide)
  · rw [if_neg hsp] at hceq2
    rw [hceq2] at hpc
    exact absurd hpc (by decide)

theorem hyphen_sep : ∀ (a b x y : List Char),
    '-' ∉ a → '-' ∉ b → a ++ '-' :: x = b ++ '-' :: y → a = b ∧ x = y := by
  intro a
  induction a with
  | nil =>
    intro b x y _ hb he
    cases b with
    | nil =>
      rw [List.nil_append, List.nil_append] at he
      injection he with _ h2
      exact ⟨rfl, h2⟩
    | cons c bs =>
      rw [List.nil_append, List.cons_append] at he
      injection he with h1 _
      apply absurd _ hb
      rw [← h1]
      exact List.mem_cons_self _ _
  | cons c as ih =>
    intro b x y ha hb he
    cases b with
    | nil =>
      rw [List.cons_append, List.nil_append] at he
      injection he with h1 _
      apply absurd _ ha
      rw [h1]
      exact List.mem_cons_self _ _
    | cons c2 bs =>
      rw [List.cons_append, List.cons_append] at he
      injection he with h1 h2
      subst h1
      obtain ⟨hab, hxy⟩ := ih bs x y
        (fun hm => ha (List.mem_cons_of_mem _ hm))
        (fun hm => hb (List.mem_cons_of_mem _ hm)) h2
      constructor
      · rw [hab]
      · exact hxy

/-- A sample document with the school-location key. -/
def sampleDoc : JVal :=
  JVal.jobj [(("schoolLocation"), JVal.jstr ("Main Street School"))]

/-- A sample timestamp. -/
def sampleTs : Timestamp := ⟨2019, 3, 1, 10, 15, 0⟩

/-- A sample row of the `maps` table. -/
def sampleRec : SsmRecord := ⟨7, 5, sampleDoc, sampleTs, sampleTs, ("Map A")⟩

/-! ## The claims -/

/-- C1: a fetched record is counted, printed, and written to file exactly
when its document contains the key `"schoolLocation"` and its owner is not
in the exclusion set \x7b2, 20\x7d: the files written, the rows printed, and
the final counter of a run are precisely those of the records satisfying
that predicate, in order. -/
theorem claim_C1 (dir : String) (rows : List SsmRecord) :
    (runPipeline dir rows).2.1
        = ((sortRecords rows).filter
            (fun r => jHasKey r.document ("schoolLocation") &&
              !(r.owner == 2 || r.owner == 20))).map (fileFor dir)
    ∧ (runPipeline dir rows).1
        = (List.enumFrom 1 ((sortRecords rows).filter
            (fun r => jHasKey r.document ("schoolLocation") &&
              !(r.owner == 2 || r.owner == 20)))).map
            (fun p => rowFor p.1 p.2)
    ∧ (runPipeline dir rows).2.2
        = ((sortRecords rows).filter
            (fun r => jHasKey r.document ("schoolLocation") &&
              !(r.owner == 2 || r.owner == 20))).length := by
  unfold runPipeline
  rw [mainLoop_spec]
  exact ⟨rfl, rfl, (Nat.zero_add _).trans rfl⟩

/-- C2: the Path Builder is a pure function equal to the specified
transform — strip trailing slashes from the directory, trim surrounding
whitespace from the location, delete every ASCII punctuation character,
turn the remaining spaces into underscores, and assemble
`dir/ssm-loc-id.json`; identical inputs give identical paths because it is
a function of its three arguments alone. -/
theorem claim_C2 (dir loc : String) (id : Int) :
    build_output_file_path dir loc id = pathBuilderSpec dir loc id :=
  build_output_file_path_eq_spec dir loc id

/-- C3: whenever `get_maps` returns normally, the returned list is sorted
ascending by the modified-at timestamp — no record with a strictly greater
timestamp precedes one with a smaller timestamp, and ties may come in any
order. -/
theorem claim_C3 (rows : List SsmRecord) (co : ConnectOutcome)
    (log : List String) (l : List SsmRecord)
    (h : get_maps rows co = PyResult.norm (log, l)) :
    l.Pairwise (fun a b => tsLe a.modified_at b.modified_at = true) := by
  have hl : l = sortRecords rows := by
    cases co with
    | ok hd =>
      simp only [get_maps, connect] at h
      rw [PyResult.norm.injEq, Prod.mk.injEq] at h
      exact h.2.symm
    | raises e =>
      by_cases hExc : isExceptionClass e = true
      · simp only [get_maps, connect, if_pos hExc] at h
        exact PyResult.noConfusion h
      · simp only [get_maps, connect, if_neg hExc] at h
        exact PyResult.noConfusion h
  rw [hl]
  exact @List.sorted_mergeSort SsmRecord
    (fun a b => tsLe a.modified_at b.modified_at)
    (fun a b c hab hbc =>
      tsLe_trans a.modified_at b.modified_at c.modified_at hab hbc)
    (fun a b => tsLe_total a.modified_at b.modified_at) rows

theorem claim_C3_witness :
    List.Pairwise
      (fun a b : SsmRecord => tsLe a.modified_at b.modified_at = true)
      [sampleRec] :=
  claim_C3 [sampleRec] (ConnectOutcome.ok 0)
    (["Connecting to ssm database...",
      "number of maps fetched: " ++ natStrS 1])
    [sampleRec]
    (by simp only [get_maps, connect, sortRecords, List.mergeSort_singleton]
        rfl)

/-- C4, counterexample: the location–padding–size field is not always
exactly 40 characters wide — a 41-character location with a one-character
size string yields a 42-character field, because the padding is empty
rather than negative. -/
theorem claim_C4_counterexample :
    (String.mk (List.replicate 41 'a') ++
        get_pad2 (String.mk (List.replicate 41 'a')) ("5") ++ ("5")).length
      ≠ 40 := by
  decide

/-- C4 (amended): every printed row is
`pad1(n) ++ str(n) ++ ". " ++ loc ++ pad2(loc, sz) ++ sz ++ 13 spaces ++
last-modified` with the timestamp formatted `YYYY-MM-DD HH:MM`; `pad1`
gives three spaces below 10, two below 100, one below 1000, and none from
1000 on; the location–padding–size field is exactly 40 characters wide
whenever `len(loc) + len(sz) ≤ 40`, and when the sum exceeds 40 the
padding is empty and the field overflows; the size string is the decimal
rendering of the character length of the Python textual representation of
the document, not a serialized byte count. -/
theorem claim_C4 :
    (∀ dir rows, (runPipeline dir rows).1
        = (List.enumFrom 1 ((sortRecords rows).filter includedB)).map
            (fun p => get_pad1 p.1 ++ natStrS p.1 ++ ". " ++
              locStr p.2.document ++
              get_pad2 (locStr p.2.document) (sizeStr p.2.document) ++
              sizeStr p.2.document ++ spacesStr 13 ++
              strftime_YmdHM p.2.modified_at))
    ∧ (∀ n : Nat, (n < 10 → get_pad1 n = "   ")
        ∧ (10 ≤ n → n < 100 → get_pad1 n = "  ")
        ∧ (100 ≤ n → n < 1000 → get_pad1 n = " ")
        ∧ (1000 ≤ n → get_pad1 n = ""))
    ∧ (∀ loc sz : String, loc.length + sz.length ≤ 40 →
        (loc ++ get_pad2 loc sz ++ sz).length = 40)
    ∧ (∀ loc sz : String, 40 < loc.length + sz.length →
        get_pad2 loc sz = "")
    ∧ (∀ d : JVal, sizeStr d = natStrS (pyRepr d).length) := by
  refine ⟨?_, ?_, ?_, ?_, fun d => rfl⟩
  · intro dir rows
    unfold runPipeline
    rw [mainLoop_spec]
    exact rfl
  · intro n
    refine ⟨fun h => ?_, fun h1 h2 => ?_, fun h1 h2 => ?_, fun h => ?_⟩
    · unfold get_pad1
      rw [if_pos h]
    · unfold get_pad1
      rw [if_neg (by omega), if_pos h2]
    · unfold get_pad1
      rw [if_neg (by omega), if_neg (by omega), if_pos h2]
    · unfold get_pad1
      rw [if_neg (by omega), if_neg (by omega), if_neg (by omega)]
  · intro loc sz h
    rw [String.length_append, String.length_append]
    have hp := get_pad2_length loc sz
    omega
  · intro loc sz h
    have h0 : ((40 - (loc.length : Int) - (sz.length : Int)).toNat) = 0 := by
      omega
    show spacesStr ((40 - (loc.length : Int) - (sz.length : Int)).toNat) = ""
    rw [h0]
    rfl

theorem claim_C4_witness :
    ("Lincoln Elementary" ++
        get_pad2 ("Lincoln Elementary") ("371") ++ ("371")).length = 40 :=
  claim_C4.2.2.1 ("Lincoln Elementary") ("371") (by decide)

/-- C5: the writer is deterministic — the bytes written for a document are
the value of the pure function `jsonDump` (keys sorted, four-space
indentation), identical on every run — and deserializing them reproduces
the document exactly. -/
theorem claim_C5 (d : JVal) (h : Canonical d) :
    jsonDecode (jsonDump d) = some d := by
  rw [jsonDecode_jsonDump, canon_eq_self h]

theorem claim_C5_witness :
    jsonDecode (jsonDump sampleDoc) = some sampleDoc :=
  claim_C5 sampleDoc
    (by show Canonical
          (JVal.jobj [(("schoolLocation"), JVal.jstr ("Main Street School"))])
        refine Canonical.cobj _ (fun p hp => ?_) ?_
        · rw [List.mem_singleton] at hp
          rw [hp]
          exact Canonical.cstr _
        · exact List.pairwise_singleton _ _)

/-- C6: distinct ids give distinct paths for every directory and every
pair of locations, even when both locations sanitize to the same cleaned
string: punctuation removal deletes every hyphen from the cleaned
location, so the final `-` before the id is unambiguous and the id is
recoverable from the path. -/
theorem claim_C6 (dir loc1 loc2 : String) (id1 id2 : Int)
    (h : id1 ≠ id2) :
    build_output_file_path dir loc1 id1 ≠ build_output_file_path dir loc2 id2 := by
  intro heq
  apply h
  apply intStr_injective
  have hd := congrArg String.data heq
  rw [build_data, build_data] at hd
  have h1 := List.append_cancel_left hd
  injection h1 with _ h1
  injection h1 with _ h1
  injection h1 with _ h1
  injection h1 with _ h1
  injection h1 with _ h1
  have hsep := hyphen_sep _ _ _ _
    (cleanLoc_no_hyphen loc1) (cleanLoc_no_hyphen loc2) h1
  have h2 := List.append_cancel_right hsep.2
  have h3 := congrArg String.mk h2
  rwa [string_mk_data, string_mk_data] at h3

theorem claim_C6_witness :
    build_output_file_path ("out") ("St. Marys") 1
      ≠ build_output_file_path ("out") ("St Marys") 2 :=
  claim_C6 ("out") ("St. Marys") ("St Marys") 1 2 (by decide)

/-- C7: `get_pad2` returns on every pair of strings: when
`40 - len(s1) - len(s2)` is non-negative the result is exactly that many
spaces, and when it is negative the result is the empty string — the
Python repetition `" " * k` yields `""` for `k < 0` rather than
failing. -/
theorem claim_C7 (s1 s2 : String) :
    ((0 : Int) ≤ 40 - (s1.length : Int) - (s2.length : Int) →
      ((get_pad2 s1 s2).length : Int)
        = 40 - (s1.length : Int) - (s2.length : Int))
    ∧ (40 - (s1.length : Int) - (s2.length : Int) < 0 →
      get_pad2 s1 s2 = "") := by
  constructor
  · intro h
    have hp := get_pad2_length s1 s2
    rw [hp]
    omega
  · intro h
    have h0 : ((40 - (s1.length : Int) - (s2.length : Int)).toNat) = 0 := by
      omega
    show spacesStr ((40 - (s1.length : Int) - (s2.length : Int)).toNat) = ""
    rw [h0]
    rfl

theorem claim_C7_witness :
    get_pad2 (String.mk (List.replicate 30 'a'))
        (String.mk (List.replicate 30 'b')) = "" :=
  (claim_C7 (String.mk (List.replicate 30 'a'))
    (String.mk (List.replicate 30 'b'))).2 (by decide)

/-- C8: the counter starts at zero and is advanced exactly once per
included record and never for an excluded one — after any prefix of the
sorted list it equals the number of included records seen so far — and
the printed rows carry the consecutive numbers 1, 2, 3, … of the included
records in order. -/
theorem claim_C8 (dir : String) (rows : List SsmRecord) :
    (∀ k : Nat, (mainLoop dir ((sortRecords rows).take k) 0).2.2
        = (((sortRecords rows).take k).filter includedB).length)
    ∧ (runPipeline dir rows).1
        = (List.enumFrom 1 ((sortRecords rows).filter includedB)).map
            (fun p => rowFor p.1 p.2) := by
  constructor
  · intro k
    rw [mainLoop_spec]
    exact Nat.zero_add _
  · unfold runPipeline
    rw [mainLoop_spec]

/-- C9: when the connection attempt raises a database error, `connect`
catches it, prints the message after the banner, and returns `None`
instead of raising; `get_maps` does not check for `None`, so the attribute
access `conn.cursor()` then raises an uncaught `AttributeError`,
terminating the run with no retry. -/
theorem claim_C9 (msg : String) (rows : List SsmRecord) :
    connect (ConnectOutcome.raises (PyError.databaseError msg))
        = PyResult.norm (["Connecting to ssm database...", msg], none)
    ∧ get_maps rows (ConnectOutcome.raises (PyError.databaseError msg))
        = PyResult.exc (PyError.attributeError
            ("NoneType object has no attribute cursor")) :=
  ⟨rfl, rfl⟩

/-- C10: `connect` never propagates any exception at all: for every
outcome of the underlying connection call it returns normally — the
`finally: return conn` clause swallows even exceptions outside the caught
classes — and such an exception (for example a `KeyboardInterrupt`) is
swallowed without being logged, leaving only the banner on standard
output and a `None` handle. -/
theorem claim_C10 :
    (∀ co : ConnectOutcome, ∃ log h, connect co = PyResult.norm (log, h))
    ∧ (∀ msg : String, connect (ConnectOutcome.raises (PyError.baseException msg))
        = PyResult.norm (["Connecting to ssm database..."], none)) := by
  constructor
  · intro co
    cases co with
    | ok h => exact ⟨_, _, rfl⟩
    | raises e => cases e <;> exact ⟨_, _, rfl⟩
  · intro msg
    rfl

end GetMentalMaps
